import Mathlib

/-!
# The Kinova robot module: constructor of `mc_robots::KinovaRobotModule`

A shallow embedding of `src/KinovaRobotModule.in.cpp`.  The constructor runs on top of
a base class that belongs to the host framework; the embedding starts from the state the
object is in when `init(...)` has returned (source line 28) and follows the constructor
body from there, statement by statement.

Conventions of the embedding.

* A C++ `double` is an exact rational: the constructor only stores literals and their
  negations (and the product `c * pow(10, -7)`), so a stored value is named by the
  expression that produced it; rounding to binary64 is not modelled.
* A `std::string` is a Lean `String`, one Lean character per C++ `char`; offsets returned
  by `rfind` count characters.
* A thrown exception, a failed `assert` (builds without `NDEBUG`) and an access outside a
  `std::vector` all end the constructor with an `Error`.
-/

namespace mc_robots

/-- A C++ `double`, as the exact value of the expression that produced it. -/
abbrev Double := ℚ

/-- How the constructor can end without producing an object. -/
inductive Error where
  /-- an `assert(expr)` evaluated to false in a build without `NDEBUG` -/
  | assertionFailed (expr : String)
  /-- the exception `std::out_of_range`, thrown by `std::map::at`, `std::unordered_map::at` -/
  | out_of_range
  /-- the element access `v[i]` with `i` not below `v.size()` -/
  | undefinedBehaviour
  deriving DecidableEq, Repr

/-! ## `std::map<std::string, V>` -/

/-- A `std::map<std::string, V>`: a list of key/value entries, keys pairwise distinct. -/
abbrev StdMap (V : Type) := List (String × V)

/-- The value stored under `k`, if there is one (`m.find(k)`). -/
def StdMap.find {V : Type} : StdMap V → String → Option V
  | [], _ => none
  | (k', v) :: rest, k => if k' = k then some v else StdMap.find rest k

/-- The call `m.at(k)`: the stored value, or the exception `std::out_of_range`. -/
def StdMap.atKey {V : Type} (m : StdMap V) (k : String) : Except Error V :=
  match StdMap.find m k with
  | some v => .ok v
  | none => .error .out_of_range

/-- The statement `m[k] = v`: overwrites the value under `k`, or adds the entry. -/
def StdMap.assign {V : Type} : StdMap V → String → V → StdMap V
  | [], k, v => [(k, v)]
  | (k', v') :: rest, k, v =>
    if k' = k then (k, v) :: rest else (k', v') :: StdMap.assign rest k v

/-- The keys of the map. -/
def StdMap.keys {V : Type} (m : StdMap V) : List String := m.map Prod.fst

/-! ## The data of `mc_rbdyn::RobotModule` the constructor touches -/

/-- The fields of an `rbd::Joint` the constructor reads or writes. -/
structure Joint where
  name : String
  gearRatio : Double
  rotorInertia : Double
  deriving DecidableEq, Repr

/-- An `rbd::MultiBody`: its joints, in index order. -/
structure MultiBody where
  joints : List Joint
  deriving DecidableEq, Repr

/-- Index of the joint called `name`, as `rbd::MultiBody` records it when it is built
(`jointNameToInd_[joints_[i].name()] = i` for `i = 0, 1, ...`). -/
def indexOfName : List Joint → String → Option Nat
  | [], _ => none
  | j :: js, name =>
    match indexOfName js name with
    | some i => some (i + 1)
    | none => if j.name = name then some 0 else none

/-- The call `mb.jointIndexByName(name)`, which is `jointNameToInd_.at(name)`. -/
def MultiBody.jointIndexByName (mb : MultiBody) (name : String) : Except Error Nat :=
  match indexOfName mb.joints name with
  | some i => .ok i
  | none => .error .out_of_range

/-- The call `mb.setJointGearRatio(num, gr)`: sets the gear ratio of `joints_[num]`. -/
def MultiBody.setJointGearRatio (mb : MultiBody) (num : Nat) (gr : Double) :
    Except Error MultiBody :=
  match mb.joints[num]? with
  | some j => .ok { mb with joints := mb.joints.set num { j with gearRatio := gr } }
  | none => .error .undefinedBehaviour

/-- The call `mb.setJointRotorInertia(num, ir)`: sets the rotor inertia of `joints_[num]`. -/
def MultiBody.setJointRotorInertia (mb : MultiBody) (num : Nat) (ir : Double) :
    Except Error MultiBody :=
  match mb.joints[num]? with
  | some j => .ok { mb with joints := mb.joints.set num { j with rotorInertia := ir } }
  | none => .error .undefinedBehaviour

/-- An `sva::PTransformd`: a rotation matrix (row by row) and a translation. -/
structure PTransformd where
  rotation : List Double
  translation : List Double
  deriving DecidableEq, Repr

/-- The transform `sva::PTransformd::Identity()`. -/
def PTransformd.Identity : PTransformd :=
  { rotation := [1, 0, 0, 0, 1, 0, 0, 0, 1], translation := [0, 0, 0] }

/-- An `mc_rbdyn::ForceSensor(name, parentBody, X_p_f)`. -/
structure ForceSensor where
  name : String
  parentBody : String
  X_p_f : PTransformd
  deriving DecidableEq, Repr

/-- The devices the constructor creates, each built from a name and a size. -/
inductive Device where
  | ExternalTorqueSensor (name : String) (size : Nat)
  | VirtualTorqueSensor (name : String) (size : Nat)
  deriving DecidableEq, Repr

/-- An `mc_rbdyn::BodySensor`, by name and parent body. -/
structure BodySensor where
  name : String
  parentBody : String
  deriving DecidableEq, Repr

/-- An `mc_rbdyn::Collision {body1, body2, iDist, sDist, damping}`. -/
structure Collision where
  body1 : String
  body2 : String
  iDist : Double
  sDist : Double
  damping : Double
  deriving DecidableEq, Repr

/-- The members of `mc_rbdyn::RobotModule` the constructor body reads or writes. -/
structure RobotModule where
  name : String
  mb : MultiBody
  _bounds : List (StdMap (List Double))
  _convexHull : StdMap (String × String)
  _forceSensors : List ForceSensor
  _devices : List Device
  _bodySensors : List BodySensor
  _minimalSelfCollisions : List Collision
  _commonSelfCollisions : List Collision
  _default_attitude : List Double
  _stance : StdMap (List Double)
  deriving DecidableEq, Repr

/-! ## The override lambdas (source lines 30 to 95) -/

/-- The statement `assert(cond)`, where `expr` is the text of the condition: nothing
happens when `NDEBUG` is defined. -/
def cassert (ndebug : Bool) (cond : Bool) (expr : String) : Except Error Unit :=
  if ndebug || cond then .ok () else .error (.assertionFailed expr)

/-- The expression `_bounds[k].at(name)`. -/
def boundsAt (bounds : List (StdMap (List Double))) (k : Nat) (name : String) :
    Except Error (List Double) :=
  match bounds[k]? with
  | none => .error .undefinedBehaviour
  | some mp => StdMap.atKey mp name

/-- The statement `_bounds[k].at(name)[0] = x`. -/
def writeBound (bounds : List (StdMap (List Double))) (k : Nat) (name : String)
    (x : Double) : Except Error (List (StdMap (List Double))) :=
  match bounds[k]? with
  | none => .error .undefinedBehaviour
  | some mp =>
    match StdMap.find mp name with
    | none => .error .out_of_range
    | some [] => .error .undefinedBehaviour
    | some (_ :: rest) => .ok (bounds.set k (StdMap.assign mp name (x :: rest)))

/-- The statement `assert(_bounds[k].at(name).size() == 1)`. -/
def assertOneBound (ndebug : Bool) (bounds : List (StdMap (List Double))) (k : Nat)
    (name : String) (expr : String) : Except Error Unit :=
  if ndebug then .ok ()
  else
    match boundsAt bounds k name with
    | .error e => .error e
    | .ok v => cassert ndebug (decide (v.length = 1)) expr

/-- The lambda `update_joint_limit` (source lines 31 to 37). -/
def update_joint_limit (ndebug : Bool) (name : String) (limit_low limit_up : Double)
    (m : RobotModule) : Except Error RobotModule := do
  cassert ndebug (decide (limit_up > 0)) "limit_up > 0"
  cassert ndebug (decide (limit_low < 0)) "limit_low < 0"
  assertOneBound ndebug m._bounds 0 name "_bounds[0].at(name).size() == 1"
  let b ← writeBound m._bounds 0 name limit_low
  let b ← writeBound b 1 name limit_up
  pure { m with _bounds := b }

/-- The lambda `update_velocity_limit` (source lines 41 to 46). -/
def update_velocity_limit (ndebug : Bool) (name : String) (limit : Double)
    (m : RobotModule) : Except Error RobotModule := do
  cassert ndebug (decide (limit > 0)) "limit > 0"
  assertOneBound ndebug m._bounds 2 name "_bounds[2].at(name).size() == 1"
  let b ← writeBound m._bounds 2 name (-limit)
  let b ← writeBound b 3 name limit
  pure { m with _bounds := b }

/-- The lambda `update_torque_limit` (source lines 55 to 60). -/
def update_torque_limit (ndebug : Bool) (name : String) (limit : Double)
    (m : RobotModule) : Except Error RobotModule := do
  cassert ndebug (decide (limit > 0)) "limit > 0"
  assertOneBound ndebug m._bounds 4 name "_bounds[4].at(name).size() == 1"
  let b ← writeBound m._bounds 4 name (-limit)
  let b ← writeBound b 5 name limit
  pure { m with _bounds := b }

/-- The lambda `set_gear_ratio` (source lines 69 to 72). -/
def set_gear_ratio (ndebug : Bool) (name : String) (gr : Double)
    (m : RobotModule) : Except Error RobotModule := do
  cassert ndebug (decide (gr > 0)) "gr > 0"
  let num ← m.mb.jointIndexByName name
  let mb ← m.mb.setJointGearRatio num gr
  pure { m with mb := mb }

/-- The lambda `set_rotor_inertia` (source lines 82 to 85). -/
def set_rotor_inertia (ndebug : Bool) (name : String) (ir : Double)
    (m : RobotModule) : Except Error RobotModule := do
  cassert ndebug (decide (ir > 0)) "ir > 0"
  let num ← m.mb.jointIndexByName name
  let mb ← m.mb.setJointRotorInertia num ir
  pure { m with mb := mb }

/-- One call of an override lambda, with its arguments. -/
inductive OverrideCall where
  | update_joint_limit (name : String) (limit_low limit_up : Double)
  | update_velocity_limit (name : String) (limit : Double)
  | update_torque_limit (name : String) (limit : Double)
  | set_gear_ratio (name : String) (gr : Double)
  | set_rotor_inertia (name : String) (ir : Double)
  deriving DecidableEq, Repr

/-- Runs one call. -/
def OverrideCall.run (ndebug : Bool) : OverrideCall → RobotModule → Except Error RobotModule
  | .update_joint_limit name lo up, m => mc_robots.update_joint_limit ndebug name lo up m
  | .update_velocity_limit name limit, m => mc_robots.update_velocity_limit ndebug name limit m
  | .update_torque_limit name limit, m => mc_robots.update_torque_limit ndebug name limit m
  | .set_gear_ratio name gr, m => mc_robots.set_gear_ratio ndebug name gr m
  | .set_rotor_inertia name ir, m => mc_robots.set_rotor_inertia ndebug name ir m

/-- The local `double power = pow(10, -7)` (source line 87). -/
def power : Double := (10 : ℚ) ^ (-7 : ℤ)

/-- The calls of source lines 38 to 95, in the order the constructor makes them. -/
def overrideCalls : List OverrideCall :=
  [ .update_joint_limit "joint_2" (-2.15) 2.15,
    .update_joint_limit "joint_4" (-2.45) 2.45,
    .update_joint_limit "joint_6" (-2.0) 2.0,
    .update_velocity_limit "joint_1" 2.0944,
    .update_velocity_limit "joint_2" 2.0944,
    .update_velocity_limit "joint_3" 2.0944,
    .update_velocity_limit "joint_3" 2.0944,
    .update_velocity_limit "joint_4" 2.0944,
    .update_velocity_limit "joint_5" 3.049,
    .update_velocity_limit "joint_6" 3.049,
    .update_velocity_limit "joint_7" 3.049,
    .update_torque_limit "joint_1" 95,
    .update_torque_limit "joint_2" 95,
    .update_torque_limit "joint_3" 95,
    .update_torque_limit "joint_4" 95,
    .update_torque_limit "joint_5" 26,
    .update_torque_limit "joint_6" 45,
    .update_torque_limit "joint_7" 26,
    .set_gear_ratio "joint_1" 100,
    .set_gear_ratio "joint_2" 100,
    .set_gear_ratio "joint_3" 100,
    .set_gear_ratio "joint_4" 100,
    .set_gear_ratio "joint_5" 100,
    .set_gear_ratio "joint_6" 100,
    .set_gear_ratio "joint_7" 100,
    .set_rotor_inertia "joint_1" ((19.28 : Double) * power),
    .set_rotor_inertia "joint_2" ((19.28 : Double) * power),
    .set_rotor_inertia "joint_3" ((19.28 : Double) * power),
    .set_rotor_inertia "joint_4" ((19.28 : Double) * power),
    .set_rotor_inertia "joint_5" ((15 : Double) * power),
    .set_rotor_inertia "joint_6" ((15 : Double) * power),
    .set_rotor_inertia "joint_7" ((15 : Double) * power) ]

/-- Runs a sequence of calls, stopping at the first one that fails. -/
def runCalls (ndebug : Bool) : List OverrideCall → RobotModule → Except Error RobotModule
  | [], m => .ok m
  | c :: cs, m =>
    match c.run ndebug m with
    | .error e => .error e
    | .ok m' => runCalls ndebug cs m'

/-! ## The convex hull scan (source lines 97 to 114) -/

/-- The search loop of `std::string::rfind`: compares `str` with the text at `pos`, then
at `pos - 1`, down to offset 0. -/
def rfindFrom (s str : List Char) : Nat → Option Nat
  | 0 => if (s.take str.length) = str then some 0 else none
  | pos + 1 =>
    if ((s.drop (pos + 1)).take str.length) = str then some (pos + 1)
    else rfindFrom s str pos

/-- The call `s.rfind(str)`: offset of the last occurrence of `str` in `s`; `none` is
`std::string::npos`. -/
def rfind (s str : String) : Option Nat :=
  if str.length ≤ s.length then rfindFrom s.data str.data (s.length - str.length)
  else none

/-- The call `s.replace(off, n, "")` for `off` not beyond the end of `s`: removes up to
`n` characters starting at offset `off`. -/
def eraseAt (s : String) (off n : Nat) : String :=
  String.mk (s.data.take off ++ s.data.drop (off + n))

/-- A `bfs::path` delivered by `bfs::directory_iterator(p)`: the scanned directory
(here ending in the separator) followed by the name of the entry. -/
structure Path where
  directory : String
  leaf : String
  deriving DecidableEq, Repr

/-- The call `file.string()`. -/
def Path.string (file : Path) : String := file.directory ++ file.leaf

/-- The call `file.filename().string()`. -/
def Path.filename (file : Path) : String := file.leaf

/-- What the filesystem holds at a path. -/
inductive FsNode where
  /-- nothing: `bfs::exists(p)` is false -/
  | absent
  /-- something that is not a directory: `bfs::is_directory(p)` is false -/
  | other
  /-- a directory, with the names of its entries in the order the iterator delivers them -/
  | directory (entries : List String)
  deriving DecidableEq, Repr

/-- Body of the loop over `files` (source lines 106 to 112). -/
def scanFile (hull : StdMap (String × String)) (file : Path) : StdMap (String × String) :=
  match rfind file.filename "-ch.txt" with
  | none => hull
  | some off =>
    let name := eraseAt file.filename off 7
    StdMap.assign hull name (name, file.string)

/-- The path `convexPath` (source line 98); `datadir` is the value CMake substitutes
for `CMAKE_INSTALL_FULL_DATADIR`. -/
def convexPath (datadir : String) (name : String) : String :=
  datadir ++ "/mc_kinova/convex/" ++ name ++ "/"

/-- Source lines 98 to 114. -/
def loadConvexHulls (datadir : String) (fs : String → FsNode) (m : RobotModule) :
    RobotModule :=
  let p := convexPath datadir m.name
  match fs p with
  | .directory entries =>
    let files : List Path := entries.map (fun e => { directory := p, leaf := e })
    { m with _convexHull := files.foldl scanFile m._convexHull }
  | _ => m

/-! ## Sensors, self-collisions, default posture (source lines 116 to 161) -/

/-- The constant `i` (source line 126). -/
def i : Double := 0.03

/-- The constant `s` (source line 127). -/
def s : Double := 0.015

/-- The constant `d` (source line 128). -/
def d : Double := 0

/-- The initialiser list assigned to `_minimalSelfCollisions` (source lines 130 to 141). -/
def minimalSelfCollisions : List Collision :=
  [ ⟨"base_link", "spherical_wrist_1_link", i, s, d⟩,
    ⟨"shoulder_link", "spherical_wrist_1_link", i, s, d⟩,
    ⟨"half_arm_1_link", "spherical_wrist_1_link", i, s, d⟩,
    ⟨"half_arm_2_link", "spherical_wrist_1_link", i, s, d⟩,
    ⟨"base_link", "spherical_wrist_2_link", i, s, d⟩,
    ⟨"shoulder_link", "spherical_wrist_2_link", i, s, d⟩,
    ⟨"half_arm_1_link", "spherical_wrist_2_link", i, s, d⟩,
    ⟨"half_arm_2_link", "spherical_wrist_2_link", i, s, d⟩,
    ⟨"base_link", "bracelet_link", i, s, d⟩,
    ⟨"shoulder_link", "bracelet_link", i, s, d⟩,
    ⟨"half_arm_1_link", "bracelet_link", i, s, d⟩,
    ⟨"half_arm_2_link", "bracelet_link", i, s, d⟩ ]

/-- The seven assignments to `_stance` (source lines 155 to 161). -/
def assignStance (stance : StdMap (List Double)) : StdMap (List Double) :=
  let stance := StdMap.assign stance "joint_1" [0.0]
  let stance := StdMap.assign stance "joint_2" [0.2618]
  let stance := StdMap.assign stance "joint_3" [3.14]
  let stance := StdMap.assign stance "joint_4" [-2.269]
  let stance := StdMap.assign stance "joint_5" [0.0]
  let stance := StdMap.assign stance "joint_6" [0.959878729]
  StdMap.assign stance "joint_7" [1.57]

/-- Source lines 116 to 161. -/
def defineSensorsCollisionsStance (m : RobotModule) : RobotModule :=
  let m := { m with _forceSensors :=
    m._forceSensors ++ [ForceSensor.mk "EEForceSensor" "FT_sensor_wrench" PTransformd.Identity] }
  let m := { m with _devices := m._devices ++ [Device.ExternalTorqueSensor "externalTorqueSensor" 7] }
  let m := { m with _devices := m._devices ++ [Device.VirtualTorqueSensor "virtualTorqueSensor" 7] }
  let m := { m with _bodySensors := [] }
  let m := { m with _minimalSelfCollisions := minimalSelfCollisions }
  let m := { m with _commonSelfCollisions := m._minimalSelfCollisions }
  let m := { m with _default_attitude := [1, 0, 0, 0, 0, 0, 0.0] }
  { m with _stance := assignStance m._stance }

/-! ## The constructor -/

/-- The body of `KinovaRobotModule::KinovaRobotModule()` from source line 30 on.
`base` is the object as `init(...)` left it, `ndebug` tells whether the build defines
`NDEBUG`, `datadir` is the installed data directory and `fs` the filesystem. -/
def KinovaRobotModule (ndebug : Bool) (datadir : String) (fs : String → FsNode)
    (base : RobotModule) : Except Error RobotModule :=
  match runCalls ndebug overrideCalls base with
  | .error e => .error e
  | .ok m => .ok (defineSensorsCollisionsStance (loadConvexHulls datadir fs m))

/-! ## What the override calls do to the bounds -/

/-- The vector `_bounds[k].at(name)` when both accesses are defined. -/
def boundVec (bounds : List (StdMap (List Double))) (k : Nat) (name : String) :
    Option (List Double) :=
  match bounds[k]? with
  | none => none
  | some mp => StdMap.find mp name

/-- The value a call stores in element 0 of `_bounds[k].at(name)`, if it stores one. -/
def OverrideCall.boundWrite : OverrideCall → Nat → String → Option Double
  | .update_joint_limit name lo up, k, n =>
    if n = name then (if k = 0 then some lo else if k = 1 then some up else none) else none
  | .update_velocity_limit name limit, k, n =>
    if n = name then (if k = 2 then some (-limit) else if k = 3 then some limit else none)
    else none
  | .update_torque_limit name limit, k, n =>
    if n = name then (if k = 4 then some (-limit) else if k = 5 then some limit else none)
    else none
  | .set_gear_ratio _ _, _, _ => none
  | .set_rotor_inertia _ _, _, _ => none

/-- The value the last call of the sequence that writes element 0 of `_bounds[k].at(name)`
stores there. -/
def boundOverride : List OverrideCall → Nat → String → Option Double
  | [], _, _ => none
  | c :: cs, k, n =>
    match boundOverride cs k n with
    | some x => some x
    | none => c.boundWrite k n

/-- Overwrites element 0 of a vector when there is a value to store. -/
def storeFirst (w : Option Double) (v : List Double) : List Double :=
  match w with
  | some x => x :: v.tail
  | none => v

/-! ## What the override calls do to the joints -/

/-- The gear ratio a call stores for the joint called `n`, if it stores one. -/
def OverrideCall.gearWrite : OverrideCall → String → Option Double
  | .set_gear_ratio name gr, n => if n = name then some gr else none
  | _, _ => none

/-- The rotor inertia a call stores for the joint called `n`, if it stores one. -/
def OverrideCall.inertiaWrite : OverrideCall → String → Option Double
  | .set_rotor_inertia name ir, n => if n = name then some ir else none
  | _, _ => none

/-- The later of two optional writes. -/
def laterWrite (later earlier : Option Double) : Option Double :=
  match later with
  | some x => some x
  | none => earlier

/-- The gear ratio the last call of the sequence that sets one for `n` stores. -/
def gearOverride : List OverrideCall → String → Option Double
  | [], _ => none
  | c :: cs, n => laterWrite (gearOverride cs n) (c.gearWrite n)

/-- The rotor inertia the last call of the sequence that sets one for `n` stores. -/
def inertiaOverride : List OverrideCall → String → Option Double
  | [], _ => none
  | c :: cs, n => laterWrite (inertiaOverride cs n) (c.inertiaWrite n)

/-- Overwrites the gear ratio and the rotor inertia of a joint where there is a value to
store. -/
def storeJoint (g r : Option Double) (j : Joint) : Joint :=
  { j with gearRatio := g.getD j.gearRatio, rotorInertia := r.getD j.rotorInertia }

/-- The condition an `assert` of a call puts on the literals it is called with. -/
def OverrideCall.literalsValid : OverrideCall → Prop
  | .update_joint_limit _ limit_low limit_up => limit_low < 0 ∧ 0 < limit_up
  | .update_velocity_limit _ limit => 0 < limit
  | .update_torque_limit _ limit => 0 < limit
  | .set_gear_ratio _ gr => 0 < gr
  | .set_rotor_inertia _ ir => 0 < ir

instance (c : OverrideCall) : Decidable c.literalsValid := by
  cases c <;> unfold OverrideCall.literalsValid <;> infer_instance

/-! ## A sample model -/

/-- The names of the seven actuated joints. -/
def jointNames : List String :=
  ["joint_1", "joint_2", "joint_3", "joint_4", "joint_5", "joint_6", "joint_7"]

/-- A bound map giving every actuated joint the one-element vector `[x]`. -/
def uniformBounds (x : Double) : StdMap (List Double) := jointNames.map (fun n => (n, [x]))

/-- A module as `init` may leave it for a seven-joint arm: a root joint, the seven
actuated joints and a fixed end-effector joint; one bound of each kind per actuated joint;
a zero posture for every joint. -/
def sampleBase : RobotModule :=
  { name := "kinova"
    mb := { joints := (Joint.mk "Root" 0 0 :: jointNames.map (fun n => Joint.mk n 0 0))
              ++ [Joint.mk "end_effector" 0 0] }
    _bounds := [uniformBounds (-3), uniformBounds 3, uniformBounds (-1), uniformBounds 1,
                uniformBounds (-39), uniformBounds 39]
    _convexHull := []
    _forceSensors := []
    _devices := []
    _bodySensors := [BodySensor.mk "Default" "base_link"]
    _minimalSelfCollisions := []
    _commonSelfCollisions := []
    _default_attitude := [1, 0, 0, 0, 0, 0, 0]
    _stance := (("Root", []) :: jointNames.map (fun n => (n, [0]))) ++ [("end_effector", [])] }

/-- A filesystem whose only directory is the convex hull directory of the sample. -/
def sampleFs : String → FsNode := fun p =>
  if p = "/usr/share/mc_kinova/convex/kinova/" then
    FsNode.directory ["base_link-ch.txt", "shoulder_link-ch.txt", "README.md"]
  else FsNode.absent

/-- The module the constructor builds from the sample. -/
def sampleModule : RobotModule :=
  match KinovaRobotModule false "/usr/share" sampleFs sampleBase with
  | .ok m => m
  | .error _ => sampleBase

/-- The sample model without `joint_7`: six actuated joints only. -/
def sixJointBase : RobotModule :=
  { sampleBase with
    mb := { joints := sampleBase.mb.joints.filter (fun j => j.name != "joint_7") }
    _bounds := sampleBase._bounds.map (fun mp => mp.filter (fun p => p.1 != "joint_7")) }

/-- A filesystem without the convex hull directory. -/
def noHullFs : String → FsNode := fun _ => FsNode.absent

/-- A filesystem whose convex hull directory holds one file, named with `-ch.txt` in the
middle. -/
def backupFs : String → FsNode := fun p =>
  if p = "/usr/share/mc_kinova/convex/kinova/" then FsNode.directory ["body-ch.txt.bak"]
  else FsNode.absent

/-- A filesystem whose convex hull directory holds a hull file of `body` and, delivered
after it, a file named with `-ch.txt` in the middle. -/
def clashFs : String → FsNode := fun p =>
  if p = "/usr/share/mc_kinova/convex/kinova/" then
    FsNode.directory ["body-ch.txt", "bo-ch.txtdy"]
  else FsNode.absent

/-- A filesystem whose convex hull directory holds, between two other entries, a hull
file of the body called `a-ch.txt`: its name contains the suffix text twice. -/
def nestedFs : String → FsNode := fun p =>
  if p = "/usr/share/mc_kinova/convex/kinova/" then
    FsNode.directory ["base_link-ch.txt", "a-ch.txt-ch.txt", "README.md"]
  else FsNode.absent

/-- The module the constructor builds from the sample model over `nestedFs`. -/
def nestedModule : RobotModule :=
  match KinovaRobotModule false "/usr/share" nestedFs sampleBase with
  | .ok m => m
  | .error _ => sampleBase

/-! ## Supporting lemmas -/

theorem StdMap.find_assign {V : Type} (m : StdMap V) (k k' : String) (v : V) :
    StdMap.find (StdMap.assign m k v) k' = if k = k' then some v else StdMap.find m k' := by
  induction m with
  | nil => simp [StdMap.assign, StdMap.find]
  | cons p rest ih =>
    obtain ⟨a, b⟩ := p
    by_cases h : a = k
    · subst h
      by_cases h' : a = k' <;> simp [StdMap.assign, StdMap.find, h']
    · by_cases h' : a = k'
      · subst h'
        have : ¬ k = a := fun e => h e.symm
        simp [StdMap.assign, StdMap.find, h, this]
      · simp [StdMap.assign, StdMap.find, h, h', ih]

theorem boundsAt_eq_ok (b : List (StdMap (List Double))) (k : Nat) (n : String)
    (v : List Double) : boundsAt b k n = .ok v ↔ boundVec b k n = some v := by
  unfold boundsAt boundVec StdMap.atKey
  cases b[k]? with
  | none => simp
  | some mp =>
    cases hf : StdMap.find mp n with
    | none => simp [hf]
    | some w => simp [hf]

theorem writeBound_ok {b b' : List (StdMap (List Double))} {k : Nat} {n : String}
    {x : Double} (h : writeBound b k n x = .ok b') (k' : Nat) (n' : String) :
    boundVec b' k' n' =
      if k' = k ∧ n' = n then (boundVec b k n).map (fun v => x :: v.tail)
      else boundVec b k' n' := by
  unfold writeBound at h
  cases hk : b[k]? with
  | none => simp [hk] at h
  | some mp =>
    rw [hk] at h
    cases hf : StdMap.find mp n with
    | none => simp [hf] at h
    | some v =>
      cases v with
      | nil => simp [hf] at h
      | cons y rest =>
        simp only [hf, Except.ok.injEq] at h
        subst h
        have hlt : k < b.length := by
          rcases Nat.lt_or_ge k b.length with h1 | h1
          · exact h1
          · rw [List.getElem?_eq_none h1] at hk
            cases hk
        by_cases e1 : k' = k
        · subst e1
          by_cases e2 : n' = n
          · subst e2
            simp [boundVec, hk, hf, List.getElem?_set, hlt, StdMap.find_assign]
          · have e3 : ¬ n = n' := fun e => e2 e.symm
            simp [boundVec, hk, List.getElem?_set, hlt, StdMap.find_assign, e2, e3]
        · have e3 : ¬ k = k' := fun e => e1 e.symm
          simp [boundVec, List.getElem?_set, e1, e3]

theorem writeBound_isOk {b : List (StdMap (List Double))} {k : Nat} {n : String}
    {y : Double} {rest : List Double} (x : Double)
    (h : boundVec b k n = some (y :: rest)) : ∃ b', writeBound b k n x = .ok b' := by
  unfold boundVec at h
  unfold writeBound
  cases hk : b[k]? with
  | none => simp [hk] at h
  | some mp =>
    rw [hk] at h
    simp only at h
    simp [h]

theorem update_joint_limit_ok {nd : Bool} {name : String} {lo up : Double}
    {m m' : RobotModule} (h : update_joint_limit nd name lo up m = .ok m') :
    ∃ b1 b2, writeBound m._bounds 0 name lo = .ok b1 ∧ writeBound b1 1 name up = .ok b2 ∧
      m' = { m with _bounds := b2 } := by
  unfold update_joint_limit at h
  simp only [bind, Except.bind, pure, Except.pure] at h
  repeat (split at h <;> try contradiction)
  rename_i b1 hb1 _ b2 hb2
  exact ⟨_, _, hb1, hb2, (Except.ok.inj h).symm⟩

theorem update_velocity_limit_ok {nd : Bool} {name : String} {limit : Double}
    {m m' : RobotModule} (h : update_velocity_limit nd name limit m = .ok m') :
    ∃ b1 b2, writeBound m._bounds 2 name (-limit) = .ok b1 ∧
      writeBound b1 3 name limit = .ok b2 ∧ m' = { m with _bounds := b2 } := by
  unfold update_velocity_limit at h
  simp only [bind, Except.bind, pure, Except.pure] at h
  repeat (split at h <;> try contradiction)
  rename_i b1 hb1 _ b2 hb2
  exact ⟨_, _, hb1, hb2, (Except.ok.inj h).symm⟩

theorem update_torque_limit_ok {nd : Bool} {name : String} {limit : Double}
    {m m' : RobotModule} (h : update_torque_limit nd name limit m = .ok m') :
    ∃ b1 b2, writeBound m._bounds 4 name (-limit) = .ok b1 ∧
      writeBound b1 5 name limit = .ok b2 ∧ m' = { m with _bounds := b2 } := by
  unfold update_torque_limit at h
  simp only [bind, Except.bind, pure, Except.pure] at h
  repeat (split at h <;> try contradiction)
  rename_i b1 hb1 _ b2 hb2
  exact ⟨_, _, hb1, hb2, (Except.ok.inj h).symm⟩

theorem cassert_ok_or (nd : Bool) (c : Bool) (e : String) :
    cassert nd c e = .ok () ∨ cassert nd c e = .error (.assertionFailed e) := by
  unfold cassert
  split <;> simp

theorem set_gear_ratio_ok {nd : Bool} {name : String} {gr : Double}
    {m m' : RobotModule} (h : set_gear_ratio nd name gr m = .ok m') :
    ∃ num j, indexOfName m.mb.joints name = some num ∧ m.mb.joints[num]? = some j ∧
      m' = { m with mb := { joints := m.mb.joints.set num { j with gearRatio := gr } } } := by
  unfold set_gear_ratio at h
  rcases cassert_ok_or nd (decide (gr > 0)) "gr > 0" with hc | hc
  · cases hi : indexOfName m.mb.joints name with
    | none => simp [bind, Except.bind, hc, MultiBody.jointIndexByName, hi] at h
    | some num =>
      cases hj : m.mb.joints[num]? with
      | none =>
        simp [bind, Except.bind, hc, MultiBody.jointIndexByName, hi,
          MultiBody.setJointGearRatio, hj] at h
      | some j =>
        simp [bind, Except.bind, hc, MultiBody.jointIndexByName, hi,
          MultiBody.setJointGearRatio, hj, pure, Except.pure] at h
        exact ⟨num, j, rfl, hj, h.symm⟩
  · simp [bind, Except.bind, hc] at h

theorem set_rotor_inertia_ok {nd : Bool} {name : String} {ir : Double}
    {m m' : RobotModule} (h : set_rotor_inertia nd name ir m = .ok m') :
    ∃ num j, indexOfName m.mb.joints name = some num ∧ m.mb.joints[num]? = some j ∧
      m' = { m with mb := { joints := m.mb.joints.set num { j with rotorInertia := ir } } } := by
  unfold set_rotor_inertia at h
  rcases cassert_ok_or nd (decide (ir > 0)) "ir > 0" with hc | hc
  · cases hi : indexOfName m.mb.joints name with
    | none => simp [bind, Except.bind, hc, MultiBody.jointIndexByName, hi] at h
    | some num =>
      cases hj : m.mb.joints[num]? with
      | none =>
        simp [bind, Except.bind, hc, MultiBody.jointIndexByName, hi,
          MultiBody.setJointRotorInertia, hj] at h
      | some j =>
        simp [bind, Except.bind, hc, MultiBody.jointIndexByName, hi,
          MultiBody.setJointRotorInertia, hj, pure, Except.pure] at h
        exact ⟨num, j, rfl, hj, h.symm⟩
  · simp [bind, Except.bind, hc] at h

/-- The frame of a call on the bounds: element 0 of the vectors the call names is
overwritten, every other vector is kept, and no other member but `mb` changes. -/
theorem OverrideCall.run_bounds {nd : Bool} {c : OverrideCall} {m m' : RobotModule}
    (h : c.run nd m = .ok m') (k : Nat) (n : String) :
    boundVec m'._bounds k n = (boundVec m._bounds k n).map (storeFirst (c.boundWrite k n)) := by
  cases c with
  | update_joint_limit name lo up =>
    obtain ⟨b1, b2, h1, h2, rfl⟩ := update_joint_limit_ok h
    simp only [writeBound_ok h2, writeBound_ok h1, OverrideCall.boundWrite]
    by_cases e : n = name
    · subst e
      by_cases e0 : k = 0
      · subst e0; cases boundVec m._bounds 0 n <;> simp [storeFirst]
      · by_cases e1 : k = 1
        · subst e1; cases boundVec m._bounds 1 n <;> simp [storeFirst]
        · cases boundVec m._bounds k n <;> simp [storeFirst, e0, e1]
    · cases boundVec m._bounds k n <;> simp [storeFirst, e]
  | update_velocity_limit name limit =>
    obtain ⟨b1, b2, h1, h2, rfl⟩ := update_velocity_limit_ok h
    simp only [writeBound_ok h2, writeBound_ok h1, OverrideCall.boundWrite]
    by_cases e : n = name
    · subst e
      by_cases e0 : k = 2
      · subst e0; cases boundVec m._bounds 2 n <;> simp [storeFirst]
      · by_cases e1 : k = 3
        · subst e1; cases boundVec m._bounds 3 n <;> simp [storeFirst]
        · cases boundVec m._bounds k n <;> simp [storeFirst, e0, e1]
    · cases boundVec m._bounds k n <;> simp [storeFirst, e]
  | update_torque_limit name limit =>
    obtain ⟨b1, b2, h1, h2, rfl⟩ := update_torque_limit_ok h
    simp only [writeBound_ok h2, writeBound_ok h1, OverrideCall.boundWrite]
    by_cases e : n = name
    · subst e
      by_cases e0 : k = 4
      · subst e0; cases boundVec m._bounds 4 n <;> simp [storeFirst]
      · by_cases e1 : k = 5
        · subst e1; cases boundVec m._bounds 5 n <;> simp [storeFirst]
        · cases boundVec m._bounds k n <;> simp [storeFirst, e0, e1]
    · cases boundVec m._bounds k n <;> simp [storeFirst, e]
  | set_gear_ratio name gr =>
    obtain ⟨num, j, _, _, rfl⟩ := set_gear_ratio_ok h
    cases boundVec m._bounds k n <;> simp [storeFirst, OverrideCall.boundWrite]
  | set_rotor_inertia name ir =>
    obtain ⟨num, j, _, _, rfl⟩ := set_rotor_inertia_ok h
    cases boundVec m._bounds k n <;> simp [storeFirst, OverrideCall.boundWrite]

theorem runCalls_cons_ok {nd : Bool} {c : OverrideCall} {cs : List OverrideCall}
    {m m' : RobotModule} (h : runCalls nd (c :: cs) m = .ok m') :
    ∃ m1, c.run nd m = .ok m1 ∧ runCalls nd cs m1 = .ok m' := by
  unfold runCalls at h
  cases hc : c.run nd m with
  | error e => simp [hc] at h
  | ok m1 => exact ⟨m1, rfl, by simpa [hc] using h⟩

theorem storeFirst_storeFirst (w1 w2 : Option Double) (v : List Double) :
    storeFirst w2 (storeFirst w1 v) =
      storeFirst (match w2 with | some x => some x | none => w1) v := by
  cases w1 <;> cases w2 <;> simp [storeFirst]

/-- The bounds after a sequence of calls: what was there, with element 0 replaced by
the value of the last call that writes it. -/
theorem runCalls_bounds {nd : Bool} (cs : List OverrideCall) {m m' : RobotModule}
    (h : runCalls nd cs m = .ok m') (k : Nat) (n : String) :
    boundVec m'._bounds k n =
      (boundVec m._bounds k n).map (storeFirst (boundOverride cs k n)) := by
  induction cs generalizing m with
  | nil =>
    simp only [runCalls, Except.ok.injEq] at h
    subst h
    cases boundVec m._bounds k n <;> simp [boundOverride, storeFirst]
  | cons c cs ih =>
    obtain ⟨m1, h1, h2⟩ := runCalls_cons_ok h
    rw [ih h2, OverrideCall.run_bounds h1, Option.map_map]
    congr 1
    funext v
    simp only [Function.comp, storeFirst_storeFirst, boundOverride]

theorem KinovaRobotModule_ok {nd : Bool} {dd : String} {fs : String → FsNode}
    {base m : RobotModule} (h : KinovaRobotModule nd dd fs base = .ok m) :
    ∃ m1, runCalls nd overrideCalls base = .ok m1 ∧
      m = defineSensorsCollisionsStance (loadConvexHulls dd fs m1) := by
  unfold KinovaRobotModule at h
  cases hc : runCalls nd overrideCalls base with
  | error e => simp [hc] at h
  | ok m1 => exact ⟨m1, rfl, by simpa [hc] using h.symm⟩

theorem loadConvexHulls_bounds (dd : String) (fs : String → FsNode) (m : RobotModule) :
    (loadConvexHulls dd fs m)._bounds = m._bounds := by
  unfold loadConvexHulls
  dsimp only
  split <;> rfl

theorem loadConvexHulls_mb (dd : String) (fs : String → FsNode) (m : RobotModule) :
    (loadConvexHulls dd fs m).mb = m.mb := by
  unfold loadConvexHulls
  dsimp only
  split <;> rfl

theorem loadConvexHulls_stance (dd : String) (fs : String → FsNode) (m : RobotModule) :
    (loadConvexHulls dd fs m)._stance = m._stance := by
  unfold loadConvexHulls
  dsimp only
  split <;> rfl

/-- The bounds of the constructed module: the bounds of the base, with element 0
replaced wherever an override call writes. -/
theorem KinovaRobotModule_bounds {nd : Bool} {dd : String} {fs : String → FsNode}
    {base m : RobotModule} (h : KinovaRobotModule nd dd fs base = .ok m)
    (k : Nat) (n : String) :
    boundVec m._bounds k n =
      (boundVec base._bounds k n).map (storeFirst (boundOverride overrideCalls k n)) := by
  obtain ⟨m1, h1, rfl⟩ := KinovaRobotModule_ok h
  have : (defineSensorsCollisionsStance (loadConvexHulls dd fs m1))._bounds = m1._bounds := by
    simp [defineSensorsCollisionsStance, loadConvexHulls_bounds]
  rw [this]
  exact runCalls_bounds overrideCalls h1 k n

example : boundOverride overrideCalls 0 "joint_2" = some (-2.15) := by
  simp [boundOverride, overrideCalls, OverrideCall.boundWrite]
example : boundOverride overrideCalls 0 "joint_2" = some (-2.15) := by
  rfl
example : boundOverride overrideCalls 0 "joint_2" = some (-2.15) := by
  decide!

theorem sample_constructed :
    KinovaRobotModule false "/usr/share" sampleFs sampleBase = .ok sampleModule := by
  with_unfolding_all rfl

theorem bound_after {nd : Bool} {dd : String} {fs : String → FsNode}
    {base m : RobotModule} (h : KinovaRobotModule nd dd fs base = .ok m)
    {k : Nat} {n : String} {v : Double}
    (ho : boundOverride overrideCalls k n = some v)
    (hb : ∃ x, boundsAt base._bounds k n = .ok [x]) :
    boundsAt m._bounds k n = .ok [v] := by
  obtain ⟨x, hx⟩ := hb
  rw [boundsAt_eq_ok] at hx ⊢
  rw [KinovaRobotModule_bounds h, hx, ho]
  rfl

theorem indexOfName_some {js : List Joint} {n : String} {idx : Nat}
    (h : indexOfName js n = some idx) : ∃ j, js[idx]? = some j ∧ j.name = n := by
  induction js generalizing idx with
  | nil => simp [indexOfName] at h
  | cons j js ih =>
    unfold indexOfName at h
    cases hr : indexOfName js n with
    | some i0 =>
      rw [hr] at h
      simp only [Option.some.injEq] at h
      subst h
      obtain ⟨j', h1, h2⟩ := ih hr
      exact ⟨j', by simpa using h1, h2⟩
    | none =>
      rw [hr] at h
      by_cases e : j.name = n
      · simp only [e, if_true, Option.some.injEq] at h
        subst h
        exact ⟨j, by simp, e⟩
      · simp [e] at h

theorem indexOfName_congr {js js' : List Joint}
    (h : js.map Joint.name = js'.map Joint.name) (n : String) :
    indexOfName js n = indexOfName js' n := by
  induction js generalizing js' with
  | nil =>
    cases js' with
    | nil => rfl
    | cons a l => simp at h
  | cons j js ih =>
    cases js' with
    | nil => simp at h
    | cons a l =>
      simp only [List.map_cons, List.cons.injEq] at h
      unfold indexOfName
      rw [ih h.2, h.1]

theorem names_set {js : List Joint} {num : Nat} {j j' : Joint}
    (hj : js[num]? = some j) (hn : j'.name = j.name) :
    (js.set num j').map Joint.name = js.map Joint.name := by
  induction js generalizing num with
  | nil => simp
  | cons a l ih =>
    cases num with
    | zero =>
      simp only [List.getElem?_cons_zero, Option.some.injEq] at hj
      subst hj
      simp [hn]
    | succ q =>
      simp only [List.getElem?_cons_succ] at hj
      simp [ih hj]

theorem storeJoint_none (j : Joint) : storeJoint none none j = j := rfl

theorem storeJoint_storeJoint (g1 r1 g2 r2 : Option Double) (j : Joint) :
    storeJoint g2 r2 (storeJoint g1 r1 j) =
      storeJoint (laterWrite g2 g1) (laterWrite r2 r1) j := by
  cases g1 <;> cases g2 <;> cases r1 <;> cases r2 <;> rfl

/-- The frame of a call on the joints: names are kept, and the joint an index resolves
for `n` receives exactly what the call stores for `n`. -/
theorem OverrideCall.run_joints {nd : Bool} {c : OverrideCall} {m m' : RobotModule}
    (h : c.run nd m = .ok m') :
    m'.mb.joints.map Joint.name = m.mb.joints.map Joint.name ∧
    ∀ (n : String) (idx : Nat), indexOfName m.mb.joints n = some idx →
      m'.mb.joints[idx]? =
        (m.mb.joints[idx]?).map (storeJoint (c.gearWrite n) (c.inertiaWrite n)) := by
  cases c with
  | update_joint_limit name lo up =>
    obtain ⟨b1, b2, h1, h2, rfl⟩ := update_joint_limit_ok h
    refine ⟨rfl, fun n idx _ => ?_⟩
    cases m.mb.joints[idx]? <;> simp [OverrideCall.gearWrite, OverrideCall.inertiaWrite, storeJoint_none]
  | update_velocity_limit name limit =>
    obtain ⟨b1, b2, h1, h2, rfl⟩ := update_velocity_limit_ok h
    refine ⟨rfl, fun n idx _ => ?_⟩
    cases m.mb.joints[idx]? <;> simp [OverrideCall.gearWrite, OverrideCall.inertiaWrite, storeJoint_none]
  | update_torque_limit name limit =>
    obtain ⟨b1, b2, h1, h2, rfl⟩ := update_torque_limit_ok h
    refine ⟨rfl, fun n idx _ => ?_⟩
    cases m.mb.joints[idx]? <;> simp [OverrideCall.gearWrite, OverrideCall.inertiaWrite, storeJoint_none]
  | set_gear_ratio name gr =>
    obtain ⟨num, j, hnum, hj, rfl⟩ := set_gear_ratio_ok h
    refine ⟨names_set hj rfl, fun n idx hidx => ?_⟩
    obtain ⟨j0, hj0, hname0⟩ := indexOfName_some hidx
    obtain ⟨j1, hj1, hname1⟩ := indexOfName_some hnum
    have hlt : num < m.mb.joints.length := by
      rcases Nat.lt_or_ge num m.mb.joints.length with h1 | h1
      · exact h1
      · rw [List.getElem?_eq_none h1] at hj
        cases hj
    by_cases e : n = name
    · subst e
      have : idx = num := by rw [hidx] at hnum; exact Option.some.inj hnum
      subst this
      simp [List.getElem?_set, hlt, hj, OverrideCall.gearWrite, OverrideCall.inertiaWrite,
        storeJoint]
    · have hne : ¬ num = idx := by
        intro e2
        subst e2
        rw [hj0] at hj1
        cases hj1
        exact e (hname0.symm.trans hname1)
      simp [List.getElem?_set, hne, hj0, OverrideCall.gearWrite, OverrideCall.inertiaWrite,
        e, storeJoint_none]
  | set_rotor_inertia name ir =>
    obtain ⟨num, j, hnum, hj, rfl⟩ := set_rotor_inertia_ok h
    refine ⟨names_set hj rfl, fun n idx hidx => ?_⟩
    obtain ⟨j0, hj0, hname0⟩ := indexOfName_some hidx
    obtain ⟨j1, hj1, hname1⟩ := indexOfName_some hnum
    have hlt : num < m.mb.joints.length := by
      rcases Nat.lt_or_ge num m.mb.joints.length with h1 | h1
      · exact h1
      · rw [List.getElem?_eq_none h1] at hj
        cases hj
    by_cases e : n = name
    · subst e
      have : idx = num := by rw [hidx] at hnum; exact Option.some.inj hnum
      subst this
      simp [List.getElem?_set, hlt, hj, OverrideCall.gearWrite, OverrideCall.inertiaWrite,
        storeJoint]
    · have hne : ¬ num = idx := by
        intro e2
        subst e2
        rw [hj0] at hj1
        cases hj1
        exact e (hname0.symm.trans hname1)
      simp [List.getElem?_set, hne, hj0, OverrideCall.gearWrite, OverrideCall.inertiaWrite,
        e, storeJoint_none]

/-- The joints after a sequence of calls: names are kept, and the joint an index resolves
for `n` holds the values of the last calls that set them. -/
theorem runCalls_joints {nd : Bool} (cs : List OverrideCall) {m m' : RobotModule}
    (h : runCalls nd cs m = .ok m') :
    m'.mb.joints.map Joint.name = m.mb.joints.map Joint.name ∧
    ∀ (n : String) (idx : Nat), indexOfName m.mb.joints n = some idx →
      m'.mb.joints[idx]? =
        (m.mb.joints[idx]?).map (storeJoint (gearOverride cs n) (inertiaOverride cs n)) := by
  induction cs generalizing m with
  | nil =>
    simp only [runCalls, Except.ok.injEq] at h
    subst h
    refine ⟨rfl, fun n idx _ => ?_⟩
    cases m.mb.joints[idx]? <;> simp [gearOverride, inertiaOverride, storeJoint_none]
  | cons c cs ih =>
    obtain ⟨m1, h1, h2⟩ := runCalls_cons_ok h
    obtain ⟨hn1, hj1⟩ := OverrideCall.run_joints h1
    obtain ⟨hn2, hj2⟩ := ih h2
    refine ⟨hn2.trans hn1, fun n idx hidx => ?_⟩
    have hidx1 : indexOfName m1.mb.joints n = some idx := by
      rw [indexOfName_congr hn1 n]; exact hidx
    rw [hj2 n idx hidx1, hj1 n idx hidx, Option.map_map]
    congr 1
    funext j
    simp only [Function.comp, storeJoint_storeJoint, gearOverride, inertiaOverride]

/-- A sequence of calls that completes resolved every joint name it sets a gear ratio
for. -/
theorem runCalls_resolves {nd : Bool} (cs : List OverrideCall) {m m' : RobotModule}
    (h : runCalls nd cs m = .ok m') (n : String)
    (hw : gearOverride cs n ≠ none ∨ inertiaOverride cs n ≠ none) :
    ∃ idx, indexOfName m.mb.joints n = some idx := by
  induction cs generalizing m with
  | nil => simp [gearOverride, inertiaOverride] at hw
  | cons c cs ih =>
    obtain ⟨m1, h1, h2⟩ := runCalls_cons_ok h
    obtain ⟨hn1, _⟩ := OverrideCall.run_joints h1
    by_cases hlater : gearOverride cs n ≠ none ∨ inertiaOverride cs n ≠ none
    · obtain ⟨idx, hidx⟩ := ih h2 hlater
      exact ⟨idx, by rw [← indexOfName_congr hn1 n]; exact hidx⟩
    · have hg : gearOverride cs n = none := by
        by_contra hc; exact hlater (Or.inl hc)
      have hr : inertiaOverride cs n = none := by
        by_contra hc; exact hlater (Or.inr hc)
      simp only [gearOverride, inertiaOverride, hg, hr, laterWrite] at hw
      cases c with
      | update_joint_limit name lo up => simp [OverrideCall.gearWrite, OverrideCall.inertiaWrite] at hw
      | update_velocity_limit name limit => simp [OverrideCall.gearWrite, OverrideCall.inertiaWrite] at hw
      | update_torque_limit name limit => simp [OverrideCall.gearWrite, OverrideCall.inertiaWrite] at hw
      | set_gear_ratio name gr =>
        obtain ⟨num, j, hnum, _, _⟩ := set_gear_ratio_ok h1
        by_cases e : n = name
        · subst e; exact ⟨num, hnum⟩
        · simp [OverrideCall.gearWrite, OverrideCall.inertiaWrite, e] at hw
      | set_rotor_inertia name ir =>
        obtain ⟨num, j, hnum, _, _⟩ := set_rotor_inertia_ok h1
        by_cases e : n = name
        · subst e; exact ⟨num, hnum⟩
        · simp [OverrideCall.gearWrite, OverrideCall.inertiaWrite, e] at hw

theorem defineSensorsCollisionsStance_mb (m : RobotModule) :
    (defineSensorsCollisionsStance m).mb = m.mb := rfl

theorem writeBound_same {b : List (StdMap (List Double))} {k : Nat} {n : String}
    {x : Double} {rest : List Double} (h : boundVec b k n = some (x :: rest)) :
    writeBound b k n x = .ok b := by
  unfold boundVec at h
  unfold writeBound
  cases hk : b[k]? with
  | none => simp [hk] at h
  | some mp =>
    rw [hk] at h
    simp only at h
    have hassign : ∀ (mp : StdMap (List Double)), StdMap.find mp n = some (x :: rest) →
        StdMap.assign mp n (x :: rest) = mp := by
      intro mp
      induction mp with
      | nil => intro hf; simp [StdMap.find] at hf
      | cons p l ih =>
        obtain ⟨a, v⟩ := p
        intro hf
        by_cases e : a = n
        · subst e
          simp only [StdMap.find, if_true, Option.some.injEq] at hf
          simp [StdMap.assign, hf]
        · simp only [StdMap.find, e, if_false] at hf
          simp [StdMap.assign, e, ih hf]
    have hlt : k < b.length := by
      rcases Nat.lt_or_ge k b.length with h1 | h1
      · exact h1
      · rw [List.getElem?_eq_none h1] at hk
        cases hk
    simp only [h, hassign mp h]
    congr 1
    apply List.ext_getElem?
    intro q
    by_cases e : k = q
    · subst e; simp [List.getElem?_set, hlt, hk]
    · simp [List.getElem?_set, e]

/-- A velocity call repeated right after itself changes nothing. -/
theorem update_velocity_limit_twice {nd : Bool} {name : String} {limit : Double}
    {m m' : RobotModule} (h : update_velocity_limit nd name limit m = .ok m') :
    update_velocity_limit nd name limit m' = .ok m' := by
  obtain ⟨b1, b2, h1, h2, hm⟩ := update_velocity_limit_ok h
  have hc : cassert nd (decide (limit > 0)) "limit > 0" = .ok () := by
    rcases cassert_ok_or nd (decide (limit > 0)) "limit > 0" with hc | hc
    · exact hc
    · simp [update_velocity_limit, bind, Except.bind, hc] at h
  -- the two vectors after the first call
  have e2 : boundVec b2 2 name = (boundVec m._bounds 2 name).map (fun v => -limit :: v.tail) := by
    simp [writeBound_ok h2, writeBound_ok h1]
  have e3 : boundVec b2 3 name = (boundVec b1 3 name).map (fun v => limit :: v.tail) := by
    simp [writeBound_ok h2]
  have s2 : ∃ y r, boundVec m._bounds 2 name = some (y :: r) := by
    unfold writeBound at h1
    unfold boundVec
    cases hk : m._bounds[2]? with
    | none => simp [hk] at h1
    | some mp =>
      rw [hk] at h1
      cases hf : StdMap.find mp name with
      | none => simp [hf] at h1
      | some v =>
        cases v with
        | nil => simp [hf] at h1
        | cons y r => exact ⟨y, r, by simp [hf]⟩
  have s3 : ∃ y r, boundVec b1 3 name = some (y :: r) := by
    unfold writeBound at h2
    unfold boundVec
    cases hk : b1[3]? with
    | none => simp [hk] at h2
    | some mp =>
      rw [hk] at h2
      cases hf : StdMap.find mp name with
      | none => simp [hf] at h2
      | some v =>
        cases v with
        | nil => simp [hf] at h2
        | cons y r => exact ⟨y, r, by simp [hf]⟩
  obtain ⟨y2, r2, hy2⟩ := s2
  obtain ⟨y3, r3, hy3⟩ := s3
  rw [hy2] at e2
  rw [hy3] at e3
  simp only [Option.map_some', List.tail_cons] at e2 e3
  have ha : assertOneBound nd m'._bounds 2 name "_bounds[2].at(name).size() == 1" = .ok () := by
    have ha0 : assertOneBound nd m._bounds 2 name "_bounds[2].at(name).size() == 1" = .ok () := by
      cases hq : assertOneBound nd m._bounds 2 name "_bounds[2].at(name).size() == 1" with
      | ok u => rfl
      | error e => simp [update_velocity_limit, bind, Except.bind, hc, hq] at h
    subst hm
    cases nd with
    | true => simp [assertOneBound]
    | false =>
      have hb : boundsAt m._bounds 2 name = .ok (y2 :: r2) := (boundsAt_eq_ok _ _ _ _).2 hy2
      have hb' : boundsAt b2 2 name = .ok (-limit :: r2) := (boundsAt_eq_ok _ _ _ _).2 e2
      simp only [assertOneBound, hb, cassert, Bool.false_or, Bool.false_eq_true, if_false] at ha0
      simp only [assertOneBound, hb', cassert, Bool.false_or, Bool.false_eq_true, if_false]
      simpa using ha0
  subst hm
  unfold update_velocity_limit
  simp only [bind, Except.bind, hc, ha, writeBound_same e2, writeBound_same e3, pure, Except.pure]

theorem runCalls_repeat {nd : Bool} (name : String) (limit : Double)
    (pre rest : List OverrideCall) (m : RobotModule) :
    runCalls nd (pre ++ .update_velocity_limit name limit ::
        .update_velocity_limit name limit :: rest) m =
      runCalls nd (pre ++ .update_velocity_limit name limit :: rest) m := by
  induction pre generalizing m with
  | nil =>
    simp only [List.nil_append, runCalls]
    cases hc : OverrideCall.run nd (.update_velocity_limit name limit) m with
    | error e => rfl
    | ok m1 =>
      have : OverrideCall.run nd (.update_velocity_limit name limit) m1 = .ok m1 :=
        update_velocity_limit_twice hc
      simp only [this]
  | cons c pre ih =>
    simp only [List.cons_append, runCalls]
    cases hc : c.run nd m with
    | error e => rfl
    | ok m1 => exact ih m1

theorem writeBound_needs {b b' : List (StdMap (List Double))} {k : Nat} {n : String}
    {x : Double} (h : writeBound b k n x = .ok b') : boundVec b k n ≠ none := by
  unfold writeBound at h
  unfold boundVec
  cases hk : b[k]? with
  | none => simp [hk] at h
  | some mp =>
    rw [hk] at h
    cases hf : StdMap.find mp n with
    | none => simp [hf] at h
    | some v => simp [hf]

/-- A call that completes found every vector it writes. -/
theorem OverrideCall.run_needs {nd : Bool} {c : OverrideCall} {m m' : RobotModule}
    (h : c.run nd m = .ok m') (k : Nat) (n : String) (hw : c.boundWrite k n ≠ none) :
    boundVec m._bounds k n ≠ none := by
  cases c with
  | update_joint_limit name lo up =>
    obtain ⟨b1, b2, h1, h2, rfl⟩ := update_joint_limit_ok h
    have n1 := writeBound_needs h1
    have n2 := writeBound_needs h2
    rw [writeBound_ok h1] at n2
    simp only [OverrideCall.boundWrite] at hw
    by_cases e : n = name
    · subst e
      by_cases e0 : k = 0
      · subst e0; exact n1
      · by_cases e1 : k = 1
        · subst e1; simpa using n2
        · simp [e0, e1] at hw
    · simp [e] at hw
  | update_velocity_limit name limit =>
    obtain ⟨b1, b2, h1, h2, rfl⟩ := update_velocity_limit_ok h
    have n1 := writeBound_needs h1
    have n2 := writeBound_needs h2
    rw [writeBound_ok h1] at n2
    simp only [OverrideCall.boundWrite] at hw
    by_cases e : n = name
    · subst e
      by_cases e0 : k = 2
      · subst e0; exact n1
      · by_cases e1 : k = 3
        · subst e1; simpa using n2
        · simp [e0, e1] at hw
    · simp [e] at hw
  | update_torque_limit name limit =>
    obtain ⟨b1, b2, h1, h2, rfl⟩ := update_torque_limit_ok h
    have n1 := writeBound_needs h1
    have n2 := writeBound_needs h2
    rw [writeBound_ok h1] at n2
    simp only [OverrideCall.boundWrite] at hw
    by_cases e : n = name
    · subst e
      by_cases e0 : k = 4
      · subst e0; exact n1
      · by_cases e1 : k = 5
        · subst e1; simpa using n2
        · simp [e0, e1] at hw
    · simp [e] at hw
  | set_gear_ratio name gr => simp [OverrideCall.boundWrite] at hw
  | set_rotor_inertia name ir => simp [OverrideCall.boundWrite] at hw

/-- A sequence of calls that completes found, in the module it started from, every
vector it writes. -/
theorem runCalls_needs {nd : Bool} (cs : List OverrideCall) {m m' : RobotModule}
    (h : runCalls nd cs m = .ok m') (k : Nat) (n : String)
    (hw : boundOverride cs k n ≠ none) : boundVec m._bounds k n ≠ none := by
  induction cs generalizing m with
  | nil => simp [boundOverride] at hw
  | cons c cs ih =>
    obtain ⟨m1, h1, h2⟩ := runCalls_cons_ok h
    by_cases hlater : boundOverride cs k n = none
    · simp only [boundOverride, hlater] at hw
      exact OverrideCall.run_needs h1 k n hw
    · have := ih h2 hlater
      rw [OverrideCall.run_bounds h1] at this
      intro hnone
      rw [hnone] at this
      exact this rfl

theorem boundsAt_out_of_range {b : List (StdMap (List Double))} {k : Nat} {n : String}
    (h : boundsAt b k n = .error .out_of_range) : boundVec b k n = none := by
  unfold boundsAt StdMap.atKey at h
  unfold boundVec
  cases hk : b[k]? with
  | none => rfl
  | some mp =>
    rw [hk] at h
    cases hf : StdMap.find mp n with
    | none => simp [hf]
    | some v => simp [hf] at h

theorem cassert_true (nd : Bool) (e : String) : cassert nd true e = .ok () := by
  simp [cassert]

theorem writeBound_error {b : List (StdMap (List Double))} {k : Nat} {n : String}
    {x : Double} {err : Error} (h : writeBound b k n x = .error err) :
    err = .out_of_range ∨ err = .undefinedBehaviour := by
  unfold writeBound at h
  cases hk : b[k]? with
  | none => simp only [hk, Except.error.injEq] at h; exact Or.inr h.symm
  | some mp =>
    rw [hk] at h
    cases hf : StdMap.find mp n with
    | none => simp only [hf, Except.error.injEq] at h; exact Or.inl h.symm
    | some v =>
      cases v with
      | nil => simp only [hf, Except.error.injEq] at h; exact Or.inr h.symm
      | cons y r => simp [hf] at h

theorem boundsAt_error {b : List (StdMap (List Double))} {k : Nat} {n : String}
    {err : Error} (h : boundsAt b k n = .error err) :
    err = .out_of_range ∨ err = .undefinedBehaviour := by
  unfold boundsAt StdMap.atKey at h
  cases hk : b[k]? with
  | none => simp only [hk, Except.error.injEq] at h; exact Or.inr h.symm
  | some mp =>
    rw [hk] at h
    cases hf : StdMap.find mp n with
    | none => simp only [hf, Except.error.injEq] at h; exact Or.inl h.symm
    | some v => simp [hf] at h

theorem assertOneBound_error {nd : Bool} {b : List (StdMap (List Double))} {k : Nat}
    {n expr : String} {err : Error} (h : assertOneBound nd b k n expr = .error err) :
    err = .assertionFailed expr ∨ err = .out_of_range ∨ err = .undefinedBehaviour := by
  unfold assertOneBound at h
  cases nd with
  | true => simp at h
  | false =>
    simp only [Bool.false_eq_true, if_false] at h
    cases hb : boundsAt b k n with
    | error e0 =>
      simp only [hb, Except.error.injEq] at h
      subst h
      exact Or.inr (boundsAt_error hb)
    | ok v =>
      simp only [hb] at h
      rcases cassert_ok_or false (decide (v.length = 1)) expr with hc | hc
      · rw [hc] at h; cases h
      · rw [hc] at h; cases h; exact Or.inl rfl

/-- The errors of the part the three bound lambdas share: the size assertion and the
two writes. -/
theorem bound_pair_error {nd : Bool} {b : List (StdMap (List Double))} {k1 k2 : Nat}
    {n expr : String} {x1 x2 : Double} {m : RobotModule} {err : Error}
    (h : (do
        assertOneBound nd b k1 n expr
        let b1 ← writeBound b k1 n x1
        let b2 ← writeBound b1 k2 n x2
        pure { m with _bounds := b2 } : Except Error RobotModule) = .error err) :
    err = .assertionFailed expr ∨ err = .out_of_range ∨ err = .undefinedBehaviour := by
  simp only [bind, Except.bind, pure, Except.pure] at h
  cases ha : assertOneBound nd b k1 n expr with
  | error e0 =>
    simp only [ha, Except.error.injEq] at h
    subst h
    exact assertOneBound_error ha
  | ok u =>
    simp only [ha] at h
    cases h1 : writeBound b k1 n x1 with
    | error e0 =>
      simp only [h1, Except.error.injEq] at h
      subst h
      exact Or.inr (writeBound_error h1)
    | ok b1 =>
      simp only [h1] at h
      cases h2 : writeBound b1 k2 n x2 with
      | error e0 =>
        simp only [h2, Except.error.injEq] at h
        subst h
        exact Or.inr (writeBound_error h2)
      | ok b2 => simp [h2] at h

theorem literal_assert_ne (e : String)
    (he : e ∈ ["limit_up > 0", "limit_low < 0", "limit > 0", "gr > 0", "ir > 0"])
    (k : String) (hk : k ∈ ["_bounds[0].at(name).size() == 1",
      "_bounds[2].at(name).size() == 1", "_bounds[4].at(name).size() == 1"])
    {err : Error}
    (h : err = .assertionFailed k ∨ err = .out_of_range ∨ err = .undefinedBehaviour) :
    err ≠ .assertionFailed e := by
  intro hc
  subst hc
  rcases h with h | h | h
  · simp only [Error.assertionFailed.injEq] at h
    subst h
    simp only [List.mem_cons, List.mem_singleton, List.not_mem_nil, or_false] at he hk
    rcases hk with rfl | rfl | rfl <;> revert he <;> decide
  · cases h
  · cases h

/-- A call whose literals satisfy its conditions never ends on one of the assertions
about those literals. -/
theorem OverrideCall.run_literal_asserts {nd : Bool} {c : OverrideCall} {m : RobotModule}
    (hv : c.literalsValid) (e : String)
    (he : e ∈ ["limit_up > 0", "limit_low < 0", "limit > 0", "gr > 0", "ir > 0"]) :
    c.run nd m ≠ .error (.assertionFailed e) := by
  intro h
  cases c with
  | update_joint_limit name lo up =>
    obtain ⟨h1, h2⟩ := hv
    simp only [OverrideCall.run, mc_robots.update_joint_limit, gt_iff_lt, h1, h2, decide_True,
      cassert_true] at h
    exact literal_assert_ne e he _ (by simp) (bound_pair_error h) rfl
  | update_velocity_limit name limit =>
    have h1 : 0 < limit := hv
    simp only [OverrideCall.run, mc_robots.update_velocity_limit, gt_iff_lt, h1, decide_True,
      cassert_true] at h
    exact literal_assert_ne e he _ (by simp) (bound_pair_error h) rfl
  | update_torque_limit name limit =>
    have h1 : 0 < limit := hv
    simp only [OverrideCall.run, mc_robots.update_torque_limit, gt_iff_lt, h1, decide_True,
      cassert_true] at h
    exact literal_assert_ne e he _ (by simp) (bound_pair_error h) rfl
  | set_gear_ratio name gr =>
    have h1 : 0 < gr := hv
    simp only [OverrideCall.run, mc_robots.set_gear_ratio, gt_iff_lt, h1, decide_True,
      cassert_true, bind, Except.bind, pure, Except.pure, MultiBody.jointIndexByName,
      MultiBody.setJointGearRatio] at h
    cases hi : indexOfName m.mb.joints name with
    | none => simp [hi] at h
    | some num =>
      cases hj : m.mb.joints[num]? with
      | none => simp [hi, hj] at h
      | some j => simp [hi, hj] at h
  | set_rotor_inertia name ir =>
    have h1 : 0 < ir := hv
    simp only [OverrideCall.run, mc_robots.set_rotor_inertia, gt_iff_lt, h1, decide_True,
      cassert_true, bind, Except.bind, pure, Except.pure, MultiBody.jointIndexByName,
      MultiBody.setJointRotorInertia] at h
    cases hi : indexOfName m.mb.joints name with
    | none => simp [hi] at h
    | some num =>
      cases hj : m.mb.joints[num]? with
      | none => simp [hi, hj] at h
      | some j => simp [hi, hj] at h

theorem runCalls_literal_asserts {nd : Bool} (cs : List OverrideCall) (m : RobotModule)
    (hv : ∀ c ∈ cs, c.literalsValid) (e : String)
    (he : e ∈ ["limit_up > 0", "limit_low < 0", "limit > 0", "gr > 0", "ir > 0"]) :
    runCalls nd cs m ≠ .error (.assertionFailed e) := by
  induction cs generalizing m with
  | nil => simp [runCalls]
  | cons c cs ih =>
    unfold runCalls
    cases hc : c.run nd m with
    | error e0 =>
      intro h
      simp only [Except.error.injEq] at h
      subst h
      exact OverrideCall.run_literal_asserts (hv c (by simp)) e he hc
    | ok m1 => exact ih m1 (fun c' hc' => hv c' (by simp [hc']))

theorem overrideCalls_literalsValid : ∀ c ∈ overrideCalls, c.literalsValid := by
  intro c hc
  simp only [overrideCalls, List.mem_cons, List.mem_singleton, List.not_mem_nil, or_false] at hc
  rcases hc with rfl | rfl | rfl | rfl | rfl | rfl | rfl | rfl | rfl | rfl | rfl | rfl | rfl |
    rfl | rfl | rfl | rfl | rfl | rfl | rfl | rfl | rfl | rfl | rfl | rfl | rfl | rfl | rfl |
    rfl | rfl | rfl | rfl <;>
    simp only [OverrideCall.literalsValid, power] <;> norm_num

/-- A call changes no member but `_bounds` and `mb`. -/
theorem OverrideCall.run_frame {nd : Bool} {c : OverrideCall} {m m' : RobotModule}
    (h : c.run nd m = .ok m') : m' = { m with _bounds := m'._bounds, mb := m'.mb } := by
  cases c with
  | update_joint_limit name lo up =>
    obtain ⟨b1, b2, _, _, rfl⟩ := update_joint_limit_ok h; rfl
  | update_velocity_limit name limit =>
    obtain ⟨b1, b2, _, _, rfl⟩ := update_velocity_limit_ok h; rfl
  | update_torque_limit name limit =>
    obtain ⟨b1, b2, _, _, rfl⟩ := update_torque_limit_ok h; rfl
  | set_gear_ratio name gr =>
    obtain ⟨num, j, _, _, rfl⟩ := set_gear_ratio_ok h; rfl
  | set_rotor_inertia name ir =>
    obtain ⟨num, j, _, _, rfl⟩ := set_rotor_inertia_ok h; rfl

theorem runCalls_frame {nd : Bool} (cs : List OverrideCall) {m m' : RobotModule}
    (h : runCalls nd cs m = .ok m') : m' = { m with _bounds := m'._bounds, mb := m'.mb } := by
  induction cs generalizing m with
  | nil =>
    simp only [runCalls, Except.ok.injEq] at h
    subst h
    rfl
  | cons c cs ih =>
    obtain ⟨m1, h1, h2⟩ := runCalls_cons_ok h
    have e1 := OverrideCall.run_frame h1
    have e2 := ih h2
    rw [e2, e1]

/-- The posture after the seven assignments: the seven joints hold their values and
every other key holds what it held. -/
theorem find_assignStance (stance : StdMap (List Double)) (n : String) :
    StdMap.find (assignStance stance) n =
      if n = "joint_7" then some [1.57]
      else if n = "joint_6" then some [0.959878729]
      else if n = "joint_5" then some [0.0]
      else if n = "joint_4" then some [-2.269]
      else if n = "joint_3" then some [3.14]
      else if n = "joint_2" then some [0.2618]
      else if n = "joint_1" then some [0.0]
      else StdMap.find stance n := by
  simp only [assignStance, StdMap.find_assign, eq_comm (b := n)]

theorem KinovaRobotModule_stance {nd : Bool} {dd : String} {fs : String → FsNode}
    {base m : RobotModule} (h : KinovaRobotModule nd dd fs base = .ok m) :
    m._stance = assignStance base._stance := by
  obtain ⟨m1, h1, rfl⟩ := KinovaRobotModule_ok h
  have e := runCalls_frame overrideCalls h1
  have : m1._stance = base._stance := by rw [e]
  simp only [defineSensorsCollisionsStance, loadConvexHulls_stance, this]

theorem assertOneBound_ok {nd : Bool} {b : List (StdMap (List Double))} {k : Nat}
    {n : String} {x : Double} (expr : String) (h : boundVec b k n = some [x]) :
    assertOneBound nd b k n expr = .ok () := by
  unfold assertOneBound
  cases nd with
  | true => rfl
  | false =>
    have hb : boundsAt b k n = .ok [x] := (boundsAt_eq_ok _ _ _ _).2 h
    simp [hb, cassert]

theorem bound_pair_ok {nd : Bool} {b : List (StdMap (List Double))} {k1 k2 : Nat}
    {n : String} (expr : String) (x1 x2 : Double) (m : RobotModule) {y1 y2 : Double}
    (hk : k2 ≠ k1) (h1 : boundVec b k1 n = some [y1]) (h2 : boundVec b k2 n = some [y2]) :
    ∃ m', (do
        assertOneBound nd b k1 n expr
        let b1 ← writeBound b k1 n x1
        let b2 ← writeBound b1 k2 n x2
        pure { m with _bounds := b2 } : Except Error RobotModule) = .ok m' := by
  obtain ⟨b1, hb1⟩ := writeBound_isOk x1 h1
  have h2' : boundVec b1 k2 n = some [y2] := by
    rw [writeBound_ok hb1]; simp [hk, h2]
  obtain ⟨b2, hb2⟩ := writeBound_isOk x2 h2'
  exact ⟨{ m with _bounds := b2 }, by
    simp [bind, Except.bind, pure, Except.pure, assertOneBound_ok expr h1, hb1, hb2]⟩

/-- A call whose literals are valid and whose targets are in the module completes. -/
theorem OverrideCall.run_ok {nd : Bool} {c : OverrideCall} {m : RobotModule}
    (hv : c.literalsValid)
    (hb : ∀ k n, c.boundWrite k n ≠ none → ∃ x, boundVec m._bounds k n = some [x])
    (hj : ∀ n, (c.gearWrite n ≠ none ∨ c.inertiaWrite n ≠ none) →
      ∃ idx, indexOfName m.mb.joints n = some idx) :
    ∃ m', c.run nd m = .ok m' := by
  cases c with
  | update_joint_limit name lo up =>
    obtain ⟨h1, h2⟩ := hv
    obtain ⟨y1, e1⟩ := hb 0 name (by simp [OverrideCall.boundWrite])
    obtain ⟨y2, e2⟩ := hb 1 name (by simp [OverrideCall.boundWrite])
    simp only [OverrideCall.run, mc_robots.update_joint_limit, gt_iff_lt, h1, h2, decide_True,
      cassert_true]
    exact bound_pair_ok _ lo up m (by decide) e1 e2
  | update_velocity_limit name limit =>
    have h1 : 0 < limit := hv
    obtain ⟨y1, e1⟩ := hb 2 name (by simp [OverrideCall.boundWrite])
    obtain ⟨y2, e2⟩ := hb 3 name (by simp [OverrideCall.boundWrite])
    simp only [OverrideCall.run, mc_robots.update_velocity_limit, gt_iff_lt, h1, decide_True,
      cassert_true]
    exact bound_pair_ok _ (-limit) limit m (by decide) e1 e2
  | update_torque_limit name limit =>
    have h1 : 0 < limit := hv
    obtain ⟨y1, e1⟩ := hb 4 name (by simp [OverrideCall.boundWrite])
    obtain ⟨y2, e2⟩ := hb 5 name (by simp [OverrideCall.boundWrite])
    simp only [OverrideCall.run, mc_robots.update_torque_limit, gt_iff_lt, h1, decide_True,
      cassert_true]
    exact bound_pair_ok _ (-limit) limit m (by decide) e1 e2
  | set_gear_ratio name gr =>
    have h1 : 0 < gr := hv
    obtain ⟨idx, hidx⟩ := hj name (Or.inl (by simp [OverrideCall.gearWrite]))
    obtain ⟨j, hj0, _⟩ := indexOfName_some hidx
    simp [OverrideCall.run, mc_robots.set_gear_ratio, h1, cassert_true, bind, Except.bind,
      pure, Except.pure, MultiBody.jointIndexByName, MultiBody.setJointGearRatio, hidx, hj0]
  | set_rotor_inertia name ir =>
    have h1 : 0 < ir := hv
    obtain ⟨idx, hidx⟩ := hj name (Or.inr (by simp [OverrideCall.inertiaWrite]))
    obtain ⟨j, hj0, _⟩ := indexOfName_some hidx
    simp [OverrideCall.run, mc_robots.set_rotor_inertia, h1, cassert_true, bind, Except.bind,
      pure, Except.pure, MultiBody.jointIndexByName, MultiBody.setJointRotorInertia, hidx, hj0]

theorem laterWrite_ne_none {a b : Option Double} (h : a ≠ none ∨ b ≠ none) :
    laterWrite a b ≠ none := by
  cases a <;> cases b <;> simp_all [laterWrite]

theorem boundOverride_cons_ne_none {c : OverrideCall} {cs : List OverrideCall} {k : Nat}
    {n : String} (h : boundOverride cs k n ≠ none ∨ c.boundWrite k n ≠ none) :
    boundOverride (c :: cs) k n ≠ none := by
  unfold boundOverride
  cases hb : boundOverride cs k n with
  | some x => simp
  | none =>
    rcases h with h | h
    · exact absurd hb h
    · simpa using h

/-- A sequence of calls with valid literals completes on a module that holds one bound
for every vector the sequence writes and a joint for every name it resolves. -/
theorem runCalls_ok {nd : Bool} (cs : List OverrideCall) (m : RobotModule)
    (hv : ∀ c ∈ cs, c.literalsValid)
    (hb : ∀ k n, boundOverride cs k n ≠ none → ∃ x, boundVec m._bounds k n = some [x])
    (hj : ∀ n, (gearOverride cs n ≠ none ∨ inertiaOverride cs n ≠ none) →
      ∃ idx, indexOfName m.mb.joints n = some idx) :
    ∃ m', runCalls nd cs m = .ok m' := by
  induction cs generalizing m with
  | nil => exact ⟨m, rfl⟩
  | cons c cs ih =>
    obtain ⟨m1, h1⟩ := @OverrideCall.run_ok nd c m (hv c (by simp))
      (fun k n hw => hb k n (boundOverride_cons_ne_none (Or.inr hw)))
      (fun n hw => hj n (by
        rcases hw with hw | hw
        · exact Or.inl (laterWrite_ne_none (Or.inr hw))
        · exact Or.inr (laterWrite_ne_none (Or.inr hw))))
    obtain ⟨hn1, _⟩ := OverrideCall.run_joints h1
    obtain ⟨m', h2⟩ := ih m1 (fun c' hc' => hv c' (by simp [hc']))
      (fun k n hw => by
        obtain ⟨x, hx⟩ := hb k n (boundOverride_cons_ne_none (Or.inl hw))
        rw [OverrideCall.run_bounds h1, hx]
        cases hcw : c.boundWrite k n with
        | none => exact ⟨x, rfl⟩
        | some w => exact ⟨w, rfl⟩)
      (fun n hw => by
        obtain ⟨idx, hidx⟩ := hj n (by
          rcases hw with hw | hw
          · exact Or.inl (laterWrite_ne_none (Or.inl hw))
          · exact Or.inr (laterWrite_ne_none (Or.inl hw)))
        exact ⟨idx, by rw [indexOfName_congr hn1 n]; exact hidx⟩)
    exact ⟨m', by simp [runCalls, h1, h2]⟩

theorem boundOverride_mem {cs : List OverrideCall} {k : Nat} {n : String}
    (h : boundOverride cs k n ≠ none) : ∃ c ∈ cs, c.boundWrite k n ≠ none := by
  induction cs with
  | nil => simp [boundOverride] at h
  | cons c cs ih =>
    by_cases hl : boundOverride cs k n = none
    · simp only [boundOverride, hl] at h
      exact ⟨c, by simp, h⟩
    · obtain ⟨c', hc', hw⟩ := ih hl
      exact ⟨c', by simp [hc'], hw⟩

theorem jointOverride_mem {cs : List OverrideCall} {n : String}
    (h : gearOverride cs n ≠ none ∨ inertiaOverride cs n ≠ none) :
    ∃ c ∈ cs, c.gearWrite n ≠ none ∨ c.inertiaWrite n ≠ none := by
  induction cs with
  | nil => simp [gearOverride, inertiaOverride] at h
  | cons c cs ih =>
    by_cases hl : gearOverride cs n ≠ none ∨ inertiaOverride cs n ≠ none
    · obtain ⟨c', hc', hw⟩ := ih hl
      exact ⟨c', by simp [hc'], hw⟩
    · have hg : gearOverride cs n = none := by
        by_contra hc; exact hl (Or.inl hc)
      have hr : inertiaOverride cs n = none := by
        by_contra hc; exact hl (Or.inr hc)
      simp only [gearOverride, inertiaOverride, hg, hr, laterWrite] at h
      exact ⟨c, by simp, h⟩

theorem overrideCalls_targets : ∀ c ∈ overrideCalls, ∀ n : String,
    ((∃ k, c.boundWrite k n ≠ none) ∨ c.gearWrite n ≠ none ∨ c.inertiaWrite n ≠ none) →
    n ∈ ["joint_1", "joint_2", "joint_3", "joint_4", "joint_5", "joint_6", "joint_7"] := by
  intro c hc n hw
  simp only [overrideCalls, List.mem_cons, List.mem_singleton, List.not_mem_nil, or_false] at hc
  rcases hc with rfl | rfl | rfl | rfl | rfl | rfl | rfl | rfl | rfl | rfl | rfl | rfl | rfl |
    rfl | rfl | rfl | rfl | rfl | rfl | rfl | rfl | rfl | rfl | rfl | rfl | rfl | rfl | rfl |
    rfl | rfl | rfl | rfl <;>
    · simp only [OverrideCall.boundWrite, OverrideCall.gearWrite, OverrideCall.inertiaWrite] at hw
      by_contra hn
      simp only [List.mem_cons, List.mem_singleton, List.not_mem_nil, or_false, not_or] at hn
      simp [hn] at hw

theorem overrideCalls_bound_index : ∀ c ∈ overrideCalls, ∀ (k : Nat) (n : String),
    c.boundWrite k n ≠ none → k ∈ [0, 1, 2, 3, 4, 5] := by
  intro c hc k n hw
  cases c with
  | update_joint_limit name lo up =>
    simp only [OverrideCall.boundWrite] at hw
    by_contra hk
    simp only [List.mem_cons, List.mem_singleton, List.not_mem_nil, or_false, not_or] at hk
    simp [hk] at hw
  | update_velocity_limit name limit =>
    simp only [OverrideCall.boundWrite] at hw
    by_contra hk
    simp only [List.mem_cons, List.mem_singleton, List.not_mem_nil, or_false, not_or] at hk
    simp [hk] at hw
  | update_torque_limit name limit =>
    simp only [OverrideCall.boundWrite] at hw
    by_contra hk
    simp only [List.mem_cons, List.mem_singleton, List.not_mem_nil, or_false, not_or] at hk
    simp [hk] at hw
  | set_gear_ratio name gr => simp [OverrideCall.boundWrite] at hw
  | set_rotor_inertia name ir => simp [OverrideCall.boundWrite] at hw

/-- The override calls complete on a model that has the seven joints, each with one
bound in each of the six bound maps. -/
theorem runCalls_overrideCalls_ok (nd : Bool) (base : RobotModule)
    (hwf : ∀ n ∈ ["joint_1", "joint_2", "joint_3", "joint_4", "joint_5", "joint_6", "joint_7"],
      (∃ num, base.mb.jointIndexByName n = .ok num) ∧
      ∀ k ∈ [0, 1, 2, 3, 4, 5], ∃ x, boundsAt base._bounds k n = .ok [x]) :
    ∃ m1, runCalls nd overrideCalls base = .ok m1 := by
  apply runCalls_ok overrideCalls base overrideCalls_literalsValid
  · intro k n hw
    obtain ⟨c, hc, hcw⟩ := boundOverride_mem hw
    have hn := overrideCalls_targets c hc n (Or.inl ⟨k, hcw⟩)
    have hk := overrideCalls_bound_index c hc k n hcw
    obtain ⟨x, hx⟩ := (hwf n hn).2 k hk
    exact ⟨x, (boundsAt_eq_ok _ _ _ _).1 hx⟩
  · intro n hw
    obtain ⟨c, hc, hcw⟩ := jointOverride_mem hw
    have hn := overrideCalls_targets c hc n (Or.inr hcw)
    obtain ⟨num, hnum⟩ := (hwf n hn).1
    unfold MultiBody.jointIndexByName at hnum
    cases hi : indexOfName base.mb.joints n with
    | none => simp [hi] at hnum
    | some idx => exact ⟨idx, rfl⟩

theorem loadConvexHulls_no_directory (dd : String) (fs : String → FsNode) (m : RobotModule)
    (h : fs (convexPath dd m.name) = .absent ∨ fs (convexPath dd m.name) = .other) :
    loadConvexHulls dd fs m = m := by
  unfold loadConvexHulls
  rcases h with h | h <;> simp [h]

theorem loadConvexHulls_frame (dd : String) (fs : String → FsNode) (m : RobotModule) :
    loadConvexHulls dd fs m =
      { m with _convexHull := (loadConvexHulls dd fs m)._convexHull } := by
  unfold loadConvexHulls
  dsimp only
  split <;> rfl

/-! ## The convex hull scan -/

theorem rfindFrom_hit (s str : List Char) (pos : Nat)
    (h : (s.drop pos).take str.length = str) : rfindFrom s str pos = some pos := by
  cases pos with
  | zero => simpa [rfindFrom] using h
  | succ p => simp [rfindFrom, h]

/-- On a file name made of `b` and the suffix, `rfind` returns the length of `b`, also
when `b` itself contains the suffix text. -/
theorem rfind_suffix (b : String) : rfind (b ++ "-ch.txt") "-ch.txt" = some b.length := by
  unfold rfind
  have hl : ("-ch.txt" : String).length = 7 := by decide
  have hlen : (b ++ "-ch.txt").length = b.length + 7 := by
    rw [String.length_append, hl]
  rw [hlen, hl, if_pos (Nat.le_add_left 7 b.length), Nat.add_sub_cancel]
  apply rfindFrom_hit
  have hd : (b ++ "-ch.txt").data = b.data ++ ("-ch.txt" : String).data := String.data_append _ _
  rw [hd]
  have : b.length = b.data.length := rfl
  rw [this, List.drop_left]
  exact List.take_length _

theorem eraseAt_suffix (b : String) : eraseAt (b ++ "-ch.txt") b.length 7 = b := by
  unfold eraseAt
  have hd : (b ++ "-ch.txt").data = b.data ++ ("-ch.txt" : String).data := String.data_append _ _
  have h7 : ("-ch.txt" : String).data.length = 7 := by decide
  have hb : b.length = b.data.length := rfl
  rw [hd, hb, List.take_left]
  have : List.drop (b.data.length + 7) (b.data ++ ("-ch.txt" : String).data) = [] := by
    apply List.drop_eq_nil_of_le
    simp [h7]
  rw [this, List.append_nil]

/-- The scan of one file named `b` followed by the suffix: the body name `b` is
recovered and stored with the pair of `b` and the full path. -/
theorem scanFile_suffix (hull : StdMap (String × String)) (dir b : String) :
    scanFile hull { directory := dir, leaf := b ++ "-ch.txt" } =
      StdMap.assign hull b (b, dir ++ (b ++ "-ch.txt")) := by
  simp only [scanFile, Path.filename, Path.string, rfind_suffix, eraseAt_suffix]

/-- A file whose name does not contain the suffix text leaves the table as it is. -/
theorem scanFile_no_match (hull : StdMap (String × String)) (file : Path)
    (h : rfind file.filename "-ch.txt" = none) : scanFile hull file = hull := by
  simp only [scanFile, h]

theorem foldl_scanFile_other (b : String) (files : List Path) (hull : StdMap (String × String))
    (h : ∀ f ∈ files, ∀ off, rfind f.filename "-ch.txt" = some off →
      eraseAt f.filename off 7 ≠ b) :
    StdMap.find (files.foldl scanFile hull) b = StdMap.find hull b := by
  induction files generalizing hull with
  | nil => rfl
  | cons f files ih =>
    rw [List.foldl_cons, ih _ (fun g hg => h g (by simp [hg]))]
    unfold scanFile
    cases hr : rfind f.filename "-ch.txt" with
    | none => rfl
    | some off =>
      have hne := h f (by simp) off hr
      simp only [StdMap.find_assign, hne, if_false]

/-- The hull table after the scan of a directory that holds a file named `b` followed by
the suffix: the key `b` holds the pair of `b` and the full path of that file, provided no
file delivered after it is reduced to the same key. -/
theorem loadConvexHulls_suffix_entry (dd : String) (fs : String → FsNode) (m : RobotModule)
    (b : String) (before after : List String)
    (hfs : fs (convexPath dd m.name) = .directory (before ++ (b ++ "-ch.txt") :: after))
    (hafter : ∀ e ∈ after, ∀ off, rfind e "-ch.txt" = some off → eraseAt e off 7 ≠ b) :
    StdMap.find (loadConvexHulls dd fs m)._convexHull b =
      some (b, convexPath dd m.name ++ (b ++ "-ch.txt")) := by
  unfold loadConvexHulls
  simp only [hfs, List.map_append, List.map_cons, List.foldl_append, List.foldl_cons]
  rw [foldl_scanFile_other, scanFile_suffix, StdMap.find_assign, if_pos rfl]
  intro f hf off hoff
  simp only [List.mem_map] at hf
  obtain ⟨e, he, rfl⟩ := hf
  exact hafter e he off hoff

/-- The constructor completes on a model that has the seven joints, each with one bound
in each of the six bound maps. -/
theorem KinovaRobotModule_completes (nd : Bool) (dd : String) (fs : String → FsNode)
    (base : RobotModule)
    (hwf : ∀ n ∈ ["joint_1", "joint_2", "joint_3", "joint_4", "joint_5", "joint_6", "joint_7"],
      (∃ num, base.mb.jointIndexByName n = .ok num) ∧
      ∀ k ∈ [0, 1, 2, 3, 4, 5], ∃ x, boundsAt base._bounds k n = .ok [x]) :
    ∃ m, KinovaRobotModule nd dd fs base = .ok m := by
  obtain ⟨m1, h1⟩ := runCalls_overrideCalls_ok nd base hwf
  exact ⟨defineSensorsCollisionsStance (loadConvexHulls dd fs m1), by
    simp [KinovaRobotModule, h1]⟩

/-- A key whose entry names the key itself keeps such an entry through the rest of the
scan: a later file either leaves it or stores a pair of the same shape. -/
theorem foldl_scanFile_key (b : String) (files : List Path) (hull : StdMap (String × String))
    (h : ∃ path, StdMap.find hull b = some (b, path)) :
    ∃ path, StdMap.find (files.foldl scanFile hull) b = some (b, path) := by
  induction files generalizing hull with
  | nil => exact h
  | cons f files ih =>
    rw [List.foldl_cons]
    apply ih
    unfold scanFile
    cases hr : rfind f.filename "-ch.txt" with
    | none => exact h
    | some off =>
      by_cases e : eraseAt f.filename off 7 = b
      · exact ⟨f.string, by simp only [StdMap.find_assign, e, if_true]⟩
      · obtain ⟨path, hp⟩ := h
        exact ⟨path, by simp only [StdMap.find_assign, e, if_false, hp]⟩

/-- A file named with the suffix text in the middle can be reduced to the key of a hull
file delivered before it: a directory that delivers `body-ch.txt` and then `bo-ch.txtdy`
ends with the key `body` mapped to the path of the second file. -/
theorem hull_entry_overwritten :
    "body-ch.txt" = "body" ++ "-ch.txt" ∧
    (KinovaRobotModule false "/usr/share" clashFs sampleBase).map
        (fun m => StdMap.find m._convexHull "body") =
      .ok (some ("body", "/usr/share/mc_kinova/convex/kinova/bo-ch.txtdy")) ∧
    (KinovaRobotModule false "/usr/share" clashFs sampleBase).map
        (fun m => StdMap.find m._convexHull "body") ≠
      .ok (some ("body", "/usr/share/mc_kinova/convex/kinova/body-ch.txt")) :=
  ⟨by decide, by with_unfolding_all rfl, by
    rw [show (KinovaRobotModule false "/usr/share" clashFs sampleBase).map
        (fun m => StdMap.find m._convexHull "body") =
      .ok (some ("body", "/usr/share/mc_kinova/convex/kinova/bo-ch.txtdy")) from by
        with_unfolding_all rfl]
    intro h
    injection h with h
    revert h
    decide⟩

/-! ## The claims -/

/-- C1: when construction completes over a model in which `joint_2`, `joint_4` and
`joint_6` each have exactly one lower and one upper position bound, the position bounds
`_bounds[0]`, `_bounds[1]` of those joints are exactly `[-2.15]`, `[2.15]` for `joint_2`,
`[-2.45]`, `[2.45]` for `joint_4` and `[-2.0]`, `[2.0]` for `joint_6`. -/
theorem position_bounds_overridden (nd : Bool) (dd : String) (fs : String → FsNode)
    (base m : RobotModule) (h : KinovaRobotModule nd dd fs base = .ok m)
    (hone : ∀ n ∈ ["joint_2", "joint_4", "joint_6"], ∀ k ∈ [0, 1],
      ∃ x, boundsAt base._bounds k n = .ok [x]) :
    boundsAt m._bounds 0 "joint_2" = .ok [-2.15] ∧ boundsAt m._bounds 1 "joint_2" = .ok [2.15] ∧
    boundsAt m._bounds 0 "joint_4" = .ok [-2.45] ∧ boundsAt m._bounds 1 "joint_4" = .ok [2.45] ∧
    boundsAt m._bounds 0 "joint_6" = .ok [-2.0] ∧ boundsAt m._bounds 1 "joint_6" = .ok [2.0] := by
  refine ⟨?_, ?_, ?_, ?_, ?_, ?_⟩
  · exact bound_after h rfl (hone _ (by simp) _ (by simp))
  · exact bound_after h rfl (hone _ (by simp) _ (by simp))
  · exact bound_after h rfl (hone _ (by simp) _ (by simp))
  · exact bound_after h rfl (hone _ (by simp) _ (by simp))
  · exact bound_after h rfl (hone _ (by simp) _ (by simp))
  · exact bound_after h rfl (hone _ (by simp) _ (by simp))

/-- C1 on the sample model: the constructor completes and the six position bounds hold. -/
theorem position_bounds_overridden_witness :
    KinovaRobotModule false "/usr/share" sampleFs sampleBase = .ok sampleModule ∧
    (∀ n ∈ ["joint_2", "joint_4", "joint_6"], ∀ k ∈ [0, 1],
      ∃ x, boundsAt sampleBase._bounds k n = .ok [x]) ∧
    (boundsAt sampleModule._bounds 0 "joint_2" = .ok [-2.15] ∧
     boundsAt sampleModule._bounds 1 "joint_2" = .ok [2.15] ∧
     boundsAt sampleModule._bounds 0 "joint_4" = .ok [-2.45] ∧
     boundsAt sampleModule._bounds 1 "joint_4" = .ok [2.45] ∧
     boundsAt sampleModule._bounds 0 "joint_6" = .ok [-2.0] ∧
     boundsAt sampleModule._bounds 1 "joint_6" = .ok [2.0]) :=
  have hone : ∀ n ∈ ["joint_2", "joint_4", "joint_6"], ∀ k ∈ [0, 1],
      ∃ x, boundsAt sampleBase._bounds k n = .ok [x] := by
    intro n hn k hk
    simp only [List.mem_cons, List.mem_singleton, List.not_mem_nil, or_false] at hn hk
    rcases hn with rfl | rfl | rfl <;> rcases hk with rfl | rfl <;> exact ⟨_, rfl⟩
  ⟨sample_constructed, hone,
    position_bounds_overridden false "/usr/share" sampleFs sampleBase sampleModule
      sample_constructed hone⟩

/-- C2: when construction completes over a model in which each of `joint_1` to `joint_7`
has exactly one velocity bound and one torque bound of each sign, then for every joint the
velocity bounds are `_bounds[2] = [-v]`, `_bounds[3] = [v]` and the torque bounds are
`_bounds[4] = [-t]`, `_bounds[5] = [t]`, with `v = 2.0944` for `joint_1` to `joint_4`,
`v = 3.049` for `joint_5` to `joint_7`, and `t = 95, 95, 95, 95, 26, 45, 26`; and the
second `joint_3` velocity call changes nothing: the calls give the same result with it
removed. -/
theorem velocity_torque_bounds_overridden (nd : Bool) (dd : String) (fs : String → FsNode)
    (base m : RobotModule) (h : KinovaRobotModule nd dd fs base = .ok m)
    (hone : ∀ n ∈ ["joint_1", "joint_2", "joint_3", "joint_4", "joint_5", "joint_6", "joint_7"],
      ∀ k ∈ [2, 3, 4, 5], ∃ x, boundsAt base._bounds k n = .ok [x]) :
    (∀ p ∈ [("joint_1", (2.0944 : Double), (95 : Double)), ("joint_2", 2.0944, 95),
            ("joint_3", 2.0944, 95), ("joint_4", 2.0944, 95), ("joint_5", 3.049, 26),
            ("joint_6", 3.049, 45), ("joint_7", 3.049, 26)],
      boundsAt m._bounds 2 p.1 = .ok [-p.2.1] ∧ boundsAt m._bounds 3 p.1 = .ok [p.2.1] ∧
      boundsAt m._bounds 4 p.1 = .ok [-p.2.2] ∧ boundsAt m._bounds 5 p.1 = .ok [p.2.2]) ∧
    runCalls nd overrideCalls base = runCalls nd (overrideCalls.eraseIdx 6) base := by
  refine ⟨?_, ?_⟩
  · intro p hp
    simp only [List.mem_cons, List.mem_singleton, List.not_mem_nil, or_false] at hp
    rcases hp with rfl | rfl | rfl | rfl | rfl | rfl | rfl <;>
      exact ⟨bound_after h rfl (hone _ (by simp) _ (by simp)),
        bound_after h rfl (hone _ (by simp) _ (by simp)),
        bound_after h rfl (hone _ (by simp) _ (by simp)),
        bound_after h rfl (hone _ (by simp) _ (by simp))⟩
  · exact runCalls_repeat "joint_3" 2.0944 (overrideCalls.take 5) (overrideCalls.drop 7) base

/-- C2 on the sample model: the constructor completes and the velocity and torque bounds
of the seven joints hold. -/
theorem velocity_torque_bounds_overridden_witness :
    KinovaRobotModule false "/usr/share" sampleFs sampleBase = .ok sampleModule ∧
    (∀ p ∈ [("joint_1", (2.0944 : Double), (95 : Double)), ("joint_2", 2.0944, 95),
            ("joint_3", 2.0944, 95), ("joint_4", 2.0944, 95), ("joint_5", 3.049, 26),
            ("joint_6", 3.049, 45), ("joint_7", 3.049, 26)],
      boundsAt sampleModule._bounds 2 p.1 = .ok [-p.2.1] ∧
      boundsAt sampleModule._bounds 3 p.1 = .ok [p.2.1] ∧
      boundsAt sampleModule._bounds 4 p.1 = .ok [-p.2.2] ∧
      boundsAt sampleModule._bounds 5 p.1 = .ok [p.2.2]) :=
  have hone : ∀ n ∈ ["joint_1", "joint_2", "joint_3", "joint_4", "joint_5", "joint_6",
      "joint_7"], ∀ k ∈ [2, 3, 4, 5], ∃ x, boundsAt sampleBase._bounds k n = .ok [x] := by
    intro n hn k hk
    simp only [List.mem_cons, List.mem_singleton, List.not_mem_nil, or_false] at hn hk
    rcases hn with rfl | rfl | rfl | rfl | rfl | rfl | rfl <;>
      rcases hk with rfl | rfl | rfl | rfl <;> exact ⟨_, rfl⟩
  ⟨sample_constructed,
    (velocity_torque_bounds_overridden false "/usr/share" sampleFs sampleBase sampleModule
      sample_constructed hone).1⟩

/-- C3: when construction completes, every joint name `joint_1` to `joint_7` resolves to
an index of the model (the same index before and after), and the joint stored at that
index carries that name, gear ratio 100, and rotor inertia `19.28 * 10^-7` for `joint_1`
to `joint_4`, `15 * 10^-7` for `joint_5` to `joint_7`. -/
theorem gear_ratio_rotor_inertia_stored (nd : Bool) (dd : String) (fs : String → FsNode)
    (base m : RobotModule) (h : KinovaRobotModule nd dd fs base = .ok m) :
    ∀ n ∈ ["joint_1", "joint_2", "joint_3", "joint_4", "joint_5", "joint_6", "joint_7"],
      ∃ num j, base.mb.jointIndexByName n = .ok num ∧ m.mb.jointIndexByName n = .ok num ∧
        m.mb.joints[num]? = some j ∧ j.name = n ∧ j.gearRatio = 100 ∧
        j.rotorInertia =
          if n ∈ ["joint_1", "joint_2", "joint_3", "joint_4"] then 19.28 * (10 : ℚ) ^ (-7 : ℤ)
          else 15 * (10 : ℚ) ^ (-7 : ℤ) := by
  obtain ⟨m1, h1, rfl⟩ := KinovaRobotModule_ok h
  obtain ⟨hnames, hjoints⟩ := runCalls_joints overrideCalls h1
  simp only [defineSensorsCollisionsStance_mb, loadConvexHulls_mb, MultiBody.jointIndexByName]
  intro n hn
  have key : ∀ g r, gearOverride overrideCalls n = some g →
      inertiaOverride overrideCalls n = some r →
      ∃ num j, (match indexOfName base.mb.joints n with
          | some i => Except.ok i
          | none => Except.error Error.out_of_range) = Except.ok num ∧
        (match indexOfName m1.mb.joints n with
          | some i => Except.ok i
          | none => Except.error Error.out_of_range) = Except.ok num ∧
        m1.mb.joints[num]? = some j ∧ j.name = n ∧ j.gearRatio = g ∧ j.rotorInertia = r := by
    intro g r hg hr
    obtain ⟨idx, hidx⟩ := runCalls_resolves overrideCalls h1 n (Or.inl (by simp [hg]))
    obtain ⟨j0, hj0, hname0⟩ := indexOfName_some hidx
    have hidx1 : indexOfName m1.mb.joints n = some idx := by
      rw [indexOfName_congr hnames n]; exact hidx
    refine ⟨idx, storeJoint (some g) (some r) j0, by simp [hidx], by simp [hidx1], ?_,
      hname0, rfl, rfl⟩
    rw [hjoints n idx hidx, hj0, hg, hr]
    rfl
  simp only [List.mem_cons, List.mem_singleton, List.not_mem_nil, or_false] at hn
  rcases hn with rfl | rfl | rfl | rfl | rfl | rfl | rfl
  · simpa using key 100 (19.28 * (10 : ℚ) ^ (-7 : ℤ)) rfl rfl
  · simpa using key 100 (19.28 * (10 : ℚ) ^ (-7 : ℤ)) rfl rfl
  · simpa using key 100 (19.28 * (10 : ℚ) ^ (-7 : ℤ)) rfl rfl
  · simpa using key 100 (19.28 * (10 : ℚ) ^ (-7 : ℤ)) rfl rfl
  · simpa using key 100 (15 * (10 : ℚ) ^ (-7 : ℤ)) rfl rfl
  · simpa using key 100 (15 * (10 : ℚ) ^ (-7 : ℤ)) rfl rfl
  · simpa using key 100 (15 * (10 : ℚ) ^ (-7 : ℤ)) rfl rfl

/-- C3 on the sample model: the constructor completes and the seven joints carry their
gear ratio and rotor inertia. -/
theorem gear_ratio_rotor_inertia_stored_witness :
    KinovaRobotModule false "/usr/share" sampleFs sampleBase = .ok sampleModule ∧
    ∀ n ∈ ["joint_1", "joint_2", "joint_3", "joint_4", "joint_5", "joint_6", "joint_7"],
      ∃ num j, sampleBase.mb.jointIndexByName n = .ok num ∧
        sampleModule.mb.jointIndexByName n = .ok num ∧
        sampleModule.mb.joints[num]? = some j ∧ j.name = n ∧ j.gearRatio = 100 ∧
        j.rotorInertia =
          if n ∈ ["joint_1", "joint_2", "joint_3", "joint_4"] then 19.28 * (10 : ℚ) ^ (-7 : ℤ)
          else 15 * (10 : ℚ) ^ (-7 : ℤ) :=
  ⟨sample_constructed,
    gear_ratio_rotor_inertia_stored false "/usr/share" sampleFs sampleBase sampleModule
      sample_constructed⟩

/-- C4: if a joint name of the override tables is absent from the loaded model, that is
from the joints of the multibody, from one of the velocity or torque bound maps, or (for
`joint_2`, `joint_4`, `joint_6`, the joints with a position override) from one of the
position bound maps, the constructor ends with an error and returns no module. -/
theorem absent_joint_fails (nd : Bool) (dd : String) (fs : String → FsNode)
    (base : RobotModule) (n : String)
    (habs :
      (n ∈ ["joint_1", "joint_2", "joint_3", "joint_4", "joint_5", "joint_6", "joint_7"] ∧
        base.mb.jointIndexByName n = .error .out_of_range) ∨
      (n ∈ ["joint_1", "joint_2", "joint_3", "joint_4", "joint_5", "joint_6", "joint_7"] ∧
        ∃ k ∈ [2, 3, 4, 5], boundsAt base._bounds k n = .error .out_of_range) ∨
      (n ∈ ["joint_2", "joint_4", "joint_6"] ∧
        ∃ k ∈ [0, 1], boundsAt base._bounds k n = .error .out_of_range)) :
    ∃ e, KinovaRobotModule nd dd fs base = .error e := by
  cases hK : KinovaRobotModule nd dd fs base with
  | error e => exact ⟨e, rfl⟩
  | ok m =>
    exfalso
    obtain ⟨m1, h1, _⟩ := KinovaRobotModule_ok hK
    rcases habs with ⟨hn, hj⟩ | ⟨hn, k, hk, hb⟩ | ⟨hn, k, hk, hb⟩
    · have hres : ∃ idx, indexOfName base.mb.joints n = some idx := by
        apply runCalls_resolves overrideCalls h1 n
        left
        simp only [List.mem_cons, List.mem_singleton, List.not_mem_nil, or_false] at hn
        rcases hn with rfl | rfl | rfl | rfl | rfl | rfl | rfl <;>
          exact ne_of_eq_of_ne (b := some _) rfl (by simp)
      obtain ⟨idx, hidx⟩ := hres
      simp [MultiBody.jointIndexByName, hidx] at hj
    · refine runCalls_needs overrideCalls h1 k n ?_ (boundsAt_out_of_range hb)
      simp only [List.mem_cons, List.mem_singleton, List.not_mem_nil, or_false] at hn hk
      rcases hn with rfl | rfl | rfl | rfl | rfl | rfl | rfl <;>
        rcases hk with rfl | rfl | rfl | rfl <;>
          exact ne_of_eq_of_ne (b := some _) rfl (by simp)
    · refine runCalls_needs overrideCalls h1 k n ?_ (boundsAt_out_of_range hb)
      simp only [List.mem_cons, List.mem_singleton, List.not_mem_nil, or_false] at hn hk
      rcases hn with rfl | rfl | rfl <;> rcases hk with rfl | rfl <;>
        exact ne_of_eq_of_ne (b := some _) rfl (by simp)

/-- C4 on the sample model without `joint_7`: the name is absent from the multibody and
the constructor ends with `std::out_of_range`. -/
theorem absent_joint_fails_witness :
    ((("joint_7" ∈ ["joint_1", "joint_2", "joint_3", "joint_4", "joint_5", "joint_6", "joint_7"] ∧
        sixJointBase.mb.jointIndexByName "joint_7" = .error .out_of_range) ∨
      ("joint_7" ∈ ["joint_1", "joint_2", "joint_3", "joint_4", "joint_5", "joint_6", "joint_7"] ∧
        ∃ k ∈ [2, 3, 4, 5], boundsAt sixJointBase._bounds k "joint_7" = .error .out_of_range) ∨
      ("joint_7" ∈ ["joint_2", "joint_4", "joint_6"] ∧
        ∃ k ∈ [0, 1], boundsAt sixJointBase._bounds k "joint_7" = .error .out_of_range)) ∧
    ∃ e, KinovaRobotModule false "/usr/share" sampleFs sixJointBase = .error e) ∧
    KinovaRobotModule false "/usr/share" sampleFs sixJointBase = .error .out_of_range :=
  have habs : ("joint_7" ∈ ["joint_1", "joint_2", "joint_3", "joint_4", "joint_5", "joint_6", "joint_7"] ∧
        sixJointBase.mb.jointIndexByName "joint_7" = .error .out_of_range) ∨
      ("joint_7" ∈ ["joint_1", "joint_2", "joint_3", "joint_4", "joint_5", "joint_6", "joint_7"] ∧
        ∃ k ∈ [2, 3, 4, 5], boundsAt sixJointBase._bounds k "joint_7" = .error .out_of_range) ∨
      ("joint_7" ∈ ["joint_2", "joint_4", "joint_6"] ∧
        ∃ k ∈ [0, 1], boundsAt sixJointBase._bounds k "joint_7" = .error .out_of_range) :=
    Or.inl ⟨by simp, by rfl⟩
  ⟨⟨habs, absent_joint_fails false "/usr/share" sampleFs sixJointBase "joint_7" habs⟩,
    by with_unfolding_all rfl⟩

/-- C5: hull discovery strips the fixed suffix to recover the body name. For every string
`b` and every file of the scanned directory named `b` followed by `-ch.txt`, also when `b`
itself contains `-ch.txt`: `rfind` returns the length of `b` and the removal leaves `b`;
when the loop has handled that file the hull table holds, under the key `b`, the pair of
`b` and the full path of that file; the constructed module still has the key `b`, with a
pair whose first part is `b`; and that pair is the one of this file whenever no file
delivered after it is reduced to the same key. -/
theorem hull_discovery_strips_suffix (nd : Bool) (dd : String) (fs : String → FsNode)
    (base m : RobotModule) (b : String) (before after : List String)
    (h : KinovaRobotModule nd dd fs base = .ok m)
    (hfs : fs (convexPath dd base.name) = .directory (before ++ (b ++ "-ch.txt") :: after)) :
    (rfind (b ++ "-ch.txt") "-ch.txt" = some b.length ∧
      eraseAt (b ++ "-ch.txt") b.length 7 = b) ∧
    StdMap.find
        (((before ++ [b ++ "-ch.txt"]).map
            (fun e => Path.mk (convexPath dd base.name) e)).foldl scanFile base._convexHull) b =
      some (b, Path.string (Path.mk (convexPath dd base.name) (b ++ "-ch.txt"))) ∧
    (∃ path, StdMap.find m._convexHull b = some (b, path)) ∧
    ((∀ e ∈ after, ∀ off, rfind e "-ch.txt" = some off → eraseAt e off 7 ≠ b) →
      StdMap.find m._convexHull b =
        some (b, Path.string (Path.mk (convexPath dd base.name) (b ++ "-ch.txt")))) := by
  obtain ⟨m1, h1, rfl⟩ := KinovaRobotModule_ok h
  have e := runCalls_frame overrideCalls h1
  have hname : m1.name = base.name := by rw [e]
  have hhull : m1._convexHull = base._convexHull := by rw [e]
  have hfinal : (defineSensorsCollisionsStance (loadConvexHulls dd fs m1))._convexHull =
      (after.map (fun e => Path.mk (convexPath dd base.name) e)).foldl scanFile
        (((before ++ [b ++ "-ch.txt"]).map
          (fun e => Path.mk (convexPath dd base.name) e)).foldl scanFile base._convexHull) := by
    have : (defineSensorsCollisionsStance (loadConvexHulls dd fs m1))._convexHull =
        (loadConvexHulls dd fs m1)._convexHull := rfl
    rw [this]
    unfold loadConvexHulls
    simp only [hname, hfs, hhull, List.map_append, List.map_cons, List.map_nil,
      List.foldl_append, List.foldl_cons, List.foldl_nil]
  have hstep : StdMap.find
      (((before ++ [b ++ "-ch.txt"]).map
          (fun e => Path.mk (convexPath dd base.name) e)).foldl scanFile base._convexHull) b =
      some (b, Path.string (Path.mk (convexPath dd base.name) (b ++ "-ch.txt"))) := by
    simp only [List.map_append, List.map_cons, List.map_nil, List.foldl_append,
      List.foldl_cons, List.foldl_nil, scanFile_suffix, StdMap.find_assign, if_true,
      Path.string]
  refine ⟨⟨rfind_suffix b, eraseAt_suffix b⟩, hstep, ?_, ?_⟩
  · rw [hfinal]
    exact foldl_scanFile_key b _ _ ⟨_, hstep⟩
  · intro hafter
    rw [hfinal, foldl_scanFile_other, hstep]
    intro f hf off hoff
    simp only [List.mem_map] at hf
    obtain ⟨e', he', rfl⟩ := hf
    exact hafter e' he' off hoff

/-- C5 on the sample model over a directory that holds `a-ch.txt-ch.txt`, the hull file
of a body whose own name contains the suffix text: the key `a-ch.txt` is recovered and
holds the full path of that file, at the time of the scan and in the constructed module. -/
theorem hull_discovery_strips_suffix_witness :
    KinovaRobotModule false "/usr/share" nestedFs sampleBase = .ok nestedModule ∧
    nestedFs (convexPath "/usr/share" sampleBase.name) =
      .directory (["base_link-ch.txt"] ++ ("a-ch.txt" ++ "-ch.txt") :: ["README.md"]) ∧
    rfind ("a-ch.txt" ++ "-ch.txt") "-ch.txt" = some 8 ∧
    StdMap.find nestedModule._convexHull "a-ch.txt" =
      some ("a-ch.txt", "/usr/share/mc_kinova/convex/kinova/a-ch.txt-ch.txt") :=
  have hK : KinovaRobotModule false "/usr/share" nestedFs sampleBase = .ok nestedModule := by
    with_unfolding_all rfl
  have hfs : nestedFs (convexPath "/usr/share" sampleBase.name) =
      .directory (["base_link-ch.txt"] ++ ("a-ch.txt" ++ "-ch.txt") :: ["README.md"]) := by
    with_unfolding_all rfl
  have hw := hull_discovery_strips_suffix false "/usr/share" nestedFs sampleBase nestedModule
    "a-ch.txt" ["base_link-ch.txt"] ["README.md"] hK hfs
  have hafter : ∀ e ∈ ["README.md"], ∀ off, rfind e "-ch.txt" = some off →
      eraseAt e off 7 ≠ "a-ch.txt" := by
    intro e he off hoff
    simp only [List.mem_singleton] at he
    subst he
    have hnone : rfind "README.md" "-ch.txt" = none := by decide
    rw [hnone] at hoff
    cases hoff
  ⟨hK, hfs, hw.1.1, by
    have h3 := hw.2.2.2 hafter
    rw [h3]
    with_unfolding_all rfl⟩

/-- C6, the code at the failing input: a directory holding only `body-ch.txt.bak`, a name
that does not end with `-ch.txt`, gives the hull table an entry, with key `body.bak`. -/
theorem backup_file_gets_hull_entry :
    ¬ ("-ch.txt".data <:+ "body-ch.txt.bak".data) ∧
    sampleBase._convexHull = [] ∧
    (KinovaRobotModule false "/usr/share" backupFs sampleBase).map (fun m => m._convexHull) =
      .ok [("body.bak",
            ("body.bak", "/usr/share/mc_kinova/convex/kinova/body-ch.txt.bak"))] :=
  ⟨by decide, rfl, by with_unfolding_all rfl⟩

/-- C7, as amended: when construction completes, the default posture maps each of
`joint_1` to `joint_7` to its one-element value (0.0, 0.2618, 3.14, -2.269, 0.0,
0.959878729, 1.57); for every other joint name the posture holds exactly what the base
initialisation left there, entry or no entry: the constructor writes no entry for another
name; so the keys of the posture are the seven names together with the keys the base
initialisation left. -/
theorem default_posture_written (nd : Bool) (dd : String) (fs : String → FsNode)
    (base m : RobotModule) (h : KinovaRobotModule nd dd fs base = .ok m) :
    (∀ p ∈ [("joint_1", (0.0 : Double)), ("joint_2", 0.2618), ("joint_3", 3.14),
            ("joint_4", -2.269), ("joint_5", 0.0), ("joint_6", 0.959878729),
            ("joint_7", 1.57)],
      StdMap.find m._stance p.1 = some [p.2]) ∧
    (∀ n, n ∉ ["joint_1", "joint_2", "joint_3", "joint_4", "joint_5", "joint_6", "joint_7"] →
      StdMap.find m._stance n = StdMap.find base._stance n) ∧
    (∀ n, StdMap.find m._stance n ≠ none ↔
      (n ∈ ["joint_1", "joint_2", "joint_3", "joint_4", "joint_5", "joint_6", "joint_7"] ∨
        StdMap.find base._stance n ≠ none)) := by
  have hs := KinovaRobotModule_stance h
  refine ⟨?_, ?_, ?_⟩
  · intro p hp
    simp only [List.mem_cons, List.mem_singleton, List.not_mem_nil, or_false] at hp
    rw [hs, find_assignStance]
    rcases hp with rfl | rfl | rfl | rfl | rfl | rfl | rfl <;> simp
  · intro n hn
    simp only [List.mem_cons, List.mem_singleton, List.not_mem_nil, or_false, not_or] at hn
    obtain ⟨h1, h2, h3, h4, h5, h6, h7⟩ := hn
    rw [hs, find_assignStance]
    simp [h1, h2, h3, h4, h5, h6, h7]
  · intro n
    rw [hs, find_assignStance]
    simp only [List.mem_cons, List.mem_singleton, List.not_mem_nil, or_false]
    split_ifs with h7 h6 h5 h4 h3 h2 h1 <;> simp [*]

/-- C7, as amended, on the sample model: the seven values are stored and every other
name keeps what the base initialisation left. -/
theorem default_posture_written_witness :
    KinovaRobotModule false "/usr/share" sampleFs sampleBase = .ok sampleModule ∧
    (∀ p ∈ [("joint_1", (0.0 : Double)), ("joint_2", 0.2618), ("joint_3", 3.14),
            ("joint_4", -2.269), ("joint_5", 0.0), ("joint_6", 0.959878729),
            ("joint_7", 1.57)],
      StdMap.find sampleModule._stance p.1 = some [p.2]) ∧
    (∀ n, n ∉ ["joint_1", "joint_2", "joint_3", "joint_4", "joint_5", "joint_6", "joint_7"] →
      StdMap.find sampleModule._stance n = StdMap.find sampleBase._stance n) :=
  have hw := default_posture_written false "/usr/share" sampleFs sampleBase sampleModule
    sample_constructed
  ⟨sample_constructed, hw.1, hw.2.1⟩

/-- C7, the claim as stated fails: built over the sample model, whose base
initialisation left a posture entry for the root joint and for the fixed end-effector
joint, the posture has nine keys, not exactly the seven of `joint_1` to `joint_7`. -/
theorem default_posture_not_only_seven_keys :
    KinovaRobotModule false "/usr/share" sampleFs sampleBase = .ok sampleModule ∧
    StdMap.keys sampleModule._stance =
      ["Root", "joint_1", "joint_2", "joint_3", "joint_4", "joint_5", "joint_6", "joint_7",
       "end_effector"] ∧
    StdMap.find sampleModule._stance "Root" = some [] ∧
    "Root" ∉ ["joint_1", "joint_2", "joint_3", "joint_4", "joint_5", "joint_6", "joint_7"] :=
  ⟨by with_unfolding_all rfl, by with_unfolding_all rfl, by with_unfolding_all rfl, by decide⟩

/-- C8: when the convex hull directory does not exist, or the path is not a directory,
the scan raises no error and leaves the hull table as the base initialisation left it:
the constructor gives exactly what it gives with any other filesystem (one where the
directory exists, say), error or module, except that the hull table of the module is the
one of the base; and it completes on every model that has the seven joints with one
bound of each kind. -/
theorem missing_hull_directory_tolerated (nd : Bool) (dd : String) (fs : String → FsNode)
    (base : RobotModule)
    (hdir : fs (convexPath dd base.name) = .absent ∨ fs (convexPath dd base.name) = .other) :
    (∀ m, KinovaRobotModule nd dd fs base = .ok m → m._convexHull = base._convexHull) ∧
    (∀ fs' : String → FsNode,
      KinovaRobotModule nd dd fs base =
        (KinovaRobotModule nd dd fs' base).map
          (fun m => { m with _convexHull := base._convexHull })) ∧
    ((∀ n ∈ ["joint_1", "joint_2", "joint_3", "joint_4", "joint_5", "joint_6", "joint_7"],
        (∃ num, base.mb.jointIndexByName n = .ok num) ∧
        ∀ k ∈ [0, 1, 2, 3, 4, 5], ∃ x, boundsAt base._bounds k n = .ok [x]) →
      ∃ m, KinovaRobotModule nd dd fs base = .ok m) := by
  have key : ∀ m1, runCalls nd overrideCalls base = .ok m1 →
      loadConvexHulls dd fs m1 = m1 ∧ m1._convexHull = base._convexHull := by
    intro m1 h1
    have e := runCalls_frame overrideCalls h1
    have hname : m1.name = base.name := by rw [e]
    have hhull : m1._convexHull = base._convexHull := by rw [e]
    exact ⟨loadConvexHulls_no_directory dd fs m1 (by rw [hname]; exact hdir), hhull⟩
  refine ⟨?_, ?_, ?_⟩
  · intro m h
    obtain ⟨m1, h1, rfl⟩ := KinovaRobotModule_ok h
    obtain ⟨e1, e2⟩ := key m1 h1
    rw [e1]
    exact e2
  · intro fs'
    unfold KinovaRobotModule
    cases h1 : runCalls nd overrideCalls base with
    | error e => rfl
    | ok m1 =>
      obtain ⟨e1, e2⟩ := key m1 h1
      simp only [Except.map, e1]
      congr 1
      rw [loadConvexHulls_frame dd fs' m1, ← e2]
      rfl
  · intro hwf
    obtain ⟨m1, h1⟩ := runCalls_overrideCalls_ok nd base hwf
    exact ⟨defineSensorsCollisionsStance (loadConvexHulls dd fs m1), by
      simp [KinovaRobotModule, h1]⟩

/-- C8 on the sample model with no convex hull directory: the constructor completes and
gives what it gives with the directory present, but for the hull table. -/
theorem missing_hull_directory_tolerated_witness :
    (noHullFs (convexPath "/usr/share" sampleBase.name) = .absent ∨
      noHullFs (convexPath "/usr/share" sampleBase.name) = .other) ∧
    (∃ m, KinovaRobotModule false "/usr/share" noHullFs sampleBase = .ok m) ∧
    KinovaRobotModule false "/usr/share" noHullFs sampleBase =
      (KinovaRobotModule false "/usr/share" sampleFs sampleBase).map
        (fun m => { m with _convexHull := sampleBase._convexHull }) :=
  have hw := missing_hull_directory_tolerated false "/usr/share" noHullFs sampleBase
    (Or.inl rfl)
  have hwf : ∀ n ∈ ["joint_1", "joint_2", "joint_3", "joint_4", "joint_5", "joint_6",
      "joint_7"], (∃ num, sampleBase.mb.jointIndexByName n = .ok num) ∧
      ∀ k ∈ [0, 1, 2, 3, 4, 5], ∃ x, boundsAt sampleBase._bounds k n = .ok [x] := by
    intro n hn
    simp only [List.mem_cons, List.mem_singleton, List.not_mem_nil, or_false] at hn
    rcases hn with rfl | rfl | rfl | rfl | rfl | rfl | rfl <;>
      · refine ⟨⟨_, rfl⟩, ?_⟩
        intro k hk
        simp only [List.mem_cons, List.mem_singleton, List.not_mem_nil, or_false] at hk
        rcases hk with rfl | rfl | rfl | rfl | rfl | rfl <;> exact ⟨_, rfl⟩
  ⟨Or.inl rfl, hw.2.2 hwf, hw.2.1 sampleFs⟩

/-- C9: every entry of the override tables satisfies the invariant of the data model
(a position override has `position-min < 0 < position-max`; a velocity limit, a torque
limit, a gear ratio and a rotor inertia are `> 0`), and so the constructor never ends on
one of its assertions about these literals (`limit_up > 0`, `limit_low < 0`, `limit > 0`,
`gr > 0`, `ir > 0`), whatever the base model, the build and the filesystem. -/
theorem override_literals_valid :
    (∀ c ∈ overrideCalls,
      match c with
      | .update_joint_limit _ limit_low limit_up => limit_low < 0 ∧ 0 < limit_up
      | .update_velocity_limit _ limit => 0 < limit
      | .update_torque_limit _ limit => 0 < limit
      | .set_gear_ratio _ gr => 0 < gr
      | .set_rotor_inertia _ ir => 0 < ir) ∧
    ∀ (nd : Bool) (dd : String) (fs : String → FsNode) (base : RobotModule),
      ∀ e ∈ ["limit_up > 0", "limit_low < 0", "limit > 0", "gr > 0", "ir > 0"],
        KinovaRobotModule nd dd fs base ≠ .error (.assertionFailed e) := by
  refine ⟨?_, ?_⟩
  · intro c hc
    have := overrideCalls_literalsValid c hc
    cases c <;> exact this
  · intro nd dd fs base e he h
    unfold KinovaRobotModule at h
    cases hc : runCalls nd overrideCalls base with
    | error e0 =>
      simp only [hc, Except.error.injEq] at h
      subst h
      exact runCalls_literal_asserts overrideCalls base overrideCalls_literalsValid e he hc
    | ok m1 => simp [hc] at h

/-- C10: when construction completes, the minimal self-collision set consists of exactly
the twelve pairs of `{base_link, shoulder_link, half_arm_1_link, half_arm_2_link}` with
`{spherical_wrist_1_link, spherical_wrist_2_link, bracelet_link}`, each once and none of a
body with itself; every pair has inner margin 0.03, outer margin 0.015 and damping 0, so
inner margin > outer margin > 0; and the common set equals the minimal set. -/
theorem self_collisions_defined (nd : Bool) (dd : String) (fs : String → FsNode)
    (base m : RobotModule) (h : KinovaRobotModule nd dd fs base = .ok m) :
    (∀ a b, (∃ c ∈ m._minimalSelfCollisions, c.body1 = a ∧ c.body2 = b) ↔
      (a ∈ ["base_link", "shoulder_link", "half_arm_1_link", "half_arm_2_link"] ∧
       b ∈ ["spherical_wrist_1_link", "spherical_wrist_2_link", "bracelet_link"])) ∧
    m._minimalSelfCollisions.length = 12 ∧
    (m._minimalSelfCollisions.map (fun c => (c.body1, c.body2))).Nodup ∧
    (∀ c ∈ m._minimalSelfCollisions, c.body1 ≠ c.body2 ∧ c.iDist = 0.03 ∧ c.sDist = 0.015 ∧
      c.damping = 0 ∧ c.iDist > c.sDist ∧ c.sDist > 0) ∧
    m._commonSelfCollisions = m._minimalSelfCollisions := by
  obtain ⟨m1, h1, rfl⟩ := KinovaRobotModule_ok h
  have hmin : (defineSensorsCollisionsStance (loadConvexHulls dd fs m1))._minimalSelfCollisions
      = minimalSelfCollisions := rfl
  have hcom : (defineSensorsCollisionsStance (loadConvexHulls dd fs m1))._commonSelfCollisions
      = minimalSelfCollisions := rfl
  rw [hmin, hcom]
  refine ⟨?_, rfl, by decide, ?_, rfl⟩
  · intro a b
    constructor
    · rintro ⟨c, hc, rfl, rfl⟩
      simp only [minimalSelfCollisions, List.mem_cons, List.mem_singleton, List.not_mem_nil,
        or_false] at hc
      rcases hc with rfl | rfl | rfl | rfl | rfl | rfl | rfl | rfl | rfl | rfl | rfl | rfl <;>
        simp
    · rintro ⟨ha, hb⟩
      simp only [List.mem_cons, List.mem_singleton, List.not_mem_nil, or_false] at ha hb
      rcases ha with rfl | rfl | rfl | rfl <;> rcases hb with rfl | rfl | rfl <;>
        simp [minimalSelfCollisions]
  · intro c hc
    simp only [minimalSelfCollisions, List.mem_cons, List.mem_singleton, List.not_mem_nil,
      or_false] at hc
    rcases hc with rfl | rfl | rfl | rfl | rfl | rfl | rfl | rfl | rfl | rfl | rfl | rfl <;>
      (refine ⟨by decide, ?_⟩; simp only [i, s, d]; norm_num)

/-- C10 on the sample model: twelve pairs, and the common set equals the minimal set. -/
theorem self_collisions_defined_witness :
    KinovaRobotModule false "/usr/share" sampleFs sampleBase = .ok sampleModule ∧
    sampleModule._minimalSelfCollisions.length = 12 ∧
    sampleModule._commonSelfCollisions = sampleModule._minimalSelfCollisions :=
  have hw := self_collisions_defined false "/usr/share" sampleFs sampleBase sampleModule
    sample_constructed
  ⟨sample_constructed, hw.2.1, hw.2.2.2.2⟩

end mc_robots
